import Mathlib

/-!
Verification of the BundleBlitz workspace-bundler core against its
natural-language specification.

The TypeScript source is shallowly embedded: strings are `List Char`,
JavaScript string operations (`replace`, `includes`, `split`, regular
expressions over the fixed literal patterns used by the program) are
modelled by executable Lean functions defined below, stateful React
handlers become pure state-transformers, and the external collaborators
(Babel, Prettier, `JSON.parse`, ESLint, `localStorage`) are parameters
with the result shape the code consumes.
-/

namespace BB

/-- Strings are modelled as lists of characters. -/
abbrev Str := List Char

/-- Coerce a Lean string literal to the `List Char` representation. -/
def str (s : String) : Str := s.data

/-! ### Substring machinery

`isPref p s` is "`p` is a leading segment of `s`", `isSuff` the mirrored
notion, `hasSub p s` is "`p` occurs contiguously somewhere in `s`"
(the semantics of JavaScript `String.prototype.includes`), and
`countOcc p s` counts all (possibly overlapping) occurrence positions. -/

def isPref : Str → Str → Bool
  | [], _ => true
  | _ :: _, [] => false
  | a :: as, b :: bs => a == b && isPref as bs

def isSuff (p s : Str) : Bool := isPref p.reverse s.reverse

def hasSub (p : Str) : Str → Bool
  | [] => isPref p []
  | c :: rest => isPref p (c :: rest) || hasSub p rest

def countOcc (p : Str) : Str → Nat
  | [] => 0
  | c :: rest => (if isPref p (c :: rest) then 1 else 0) + countOcc p rest

theorem isPref_iff (p s : Str) : isPref p s = true ↔ ∃ t, s = p ++ t := by
  induction p generalizing s with
  | nil =>
    simp [isPref]
  | cons a as ih =>
    cases s with
    | nil =>
      simp [isPref]
    | cons b bs =>
      simp only [isPref, Bool.and_eq_true, beq_iff_eq, ih]
      constructor
      · rintro ⟨rfl, t, rfl⟩
        exact ⟨t, rfl⟩
      · rintro ⟨t, h⟩
        rw [List.cons_append] at h
        cases h
        exact ⟨rfl, t, rfl⟩

theorem isPref_length_le (p s : Str) (h : isPref p s = true) : p.length ≤ s.length := by
  rcases (isPref_iff p s).1 h with ⟨t, rfl⟩
  simp

theorem isPref_append_left (p u v : Str) (h : isPref p u = true) :
    isPref p (u ++ v) = true := by
  rcases (isPref_iff p u).1 h with ⟨t, rfl⟩
  exact (isPref_iff _ _).2 ⟨t ++ v, by simp⟩

theorem isPref_of_append (p u v : Str) (h : isPref p (u ++ v) = true)
    (hl : p.length ≤ u.length) : isPref p u = true := by
  rcases (isPref_iff p (u ++ v)).1 h with ⟨t, ht⟩
  refine (isPref_iff p u).2 ⟨u.drop p.length, ?_⟩
  have h1 : u.take p.length = p := by
    have := congrArg (List.take p.length) ht
    rwa [List.take_append_of_le_length hl, List.take_left' rfl] at this
  conv_lhs => rw [← List.take_append_drop p.length u]
  rw [h1]

theorem isSuff_iff (p s : Str) : isSuff p s = true ↔ ∃ t, s = t ++ p := by
  unfold isSuff
  rw [isPref_iff]
  constructor
  · rintro ⟨t, ht⟩
    refine ⟨t.reverse, ?_⟩
    have := congrArg List.reverse ht
    simpa using this
  · rintro ⟨t, rfl⟩
    exact ⟨t.reverse, by simp⟩

theorem isSuff_cons (q : Str) (c : Char) (t : Str) (h : isSuff q t = true) :
    isSuff q (c :: t) = true := by
  rcases (isSuff_iff q t).1 h with ⟨w, rfl⟩
  exact (isSuff_iff _ _).2 ⟨c :: w, rfl⟩

theorem hasSub_iff (p s : Str) : hasSub p s = true ↔ ∃ x y, s = x ++ p ++ y := by
  induction s with
  | nil =>
    simp only [hasSub, isPref_iff]
    constructor
    · rintro ⟨t, ht⟩
      exact ⟨[], t, ht⟩
    · rintro ⟨x, y, h⟩
      rcases List.append_eq_nil.mp (List.append_eq_nil.mp h.symm).1 with ⟨rfl, rfl⟩
      exact ⟨y, h⟩
  | cons c rest ih =>
    simp only [hasSub, Bool.or_eq_true, ih, isPref_iff]
    constructor
    · rintro (⟨t, ht⟩ | ⟨x, y, rfl⟩)
      · exact ⟨[], t, by simpa using ht⟩
      · exact ⟨c :: x, y, rfl⟩
    · rintro ⟨x, y, h⟩
      cases x with
      | nil =>
        exact Or.inl ⟨y, by simpa using h⟩
      | cons d ds =>
        rw [List.cons_append, List.cons_append] at h
        cases h
        exact Or.inr ⟨ds, y, rfl⟩

theorem hasSub_append_left (p u v : Str) (h : hasSub p u = true) :
    hasSub p (u ++ v) = true := by
  rcases (hasSub_iff p u).1 h with ⟨x, y, rfl⟩
  exact (hasSub_iff _ _).2 ⟨x, y ++ v, by simp⟩

theorem hasSub_append_right (p u v : Str) (h : hasSub p v = true) :
    hasSub p (u ++ v) = true := by
  rcases (hasSub_iff p v).1 h with ⟨x, y, rfl⟩
  exact (hasSub_iff _ _).2 ⟨u ++ x, y, by simp⟩

theorem hasSub_ne_nil (p s : Str) (hp : p ≠ []) (h : hasSub p s = true) : s ≠ [] := by
  rcases (hasSub_iff p s).1 h with ⟨x, y, rfl⟩
  intro hn
  rcases List.append_eq_nil.mp (List.append_eq_nil.mp hn).1 with ⟨-, rfl⟩
  exact hp rfl

/-- Decomposition of an occurrence across a concatenation point: it lies in
the left part, in the right part, or straddles the junction. -/
theorem hasSub_append_iff (p u v : Str) :
    hasSub p (u ++ v) = true ↔
      hasSub p u = true ∨ hasSub p v = true ∨
      ∃ k, 0 < k ∧ k < p.length ∧ isSuff (p.take k) u = true ∧
        isPref (p.drop k) v = true := by
  constructor
  · intro h
    rcases (hasSub_iff p (u ++ v)).1 h with ⟨x, y, hxy⟩
    rw [List.append_assoc] at hxy
    rcases List.append_eq_append_iff.1 hxy with ⟨w, hw1, hw2⟩ | ⟨w, hw1, hw2⟩
    · -- x = u ++ w, v = w ++ (p ++ y) : occurrence inside v
      exact Or.inr (Or.inl ((hasSub_iff p v).2 ⟨w, y, by rw [hw2, List.append_assoc]⟩))
    · -- u = x ++ w, p ++ y = w ++ v
      rcases List.append_eq_append_iff.1 hw2 with ⟨w', hA, hB⟩ | ⟨w', hA, hB⟩
      · -- w = p ++ w' : occurrence inside u
        subst hA
        exact Or.inl ((hasSub_iff p u).2 ⟨x, w', by rw [hw1, List.append_assoc]⟩)
      · -- p = w ++ w', v = w' ++ y
        cases w with
        | nil =>
          simp only [List.nil_append] at hA
          exact Or.inr (Or.inl ((hasSub_iff p v).2 ⟨[], y, by simp [hB, ← hA]⟩))
        | cons d ds =>
          cases w' with
          | nil =>
            refine Or.inl ((hasSub_iff p u).2 ⟨x, [], ?_⟩)
            rw [hw1, hA]
            simp
          | cons e es =>
            refine Or.inr (Or.inr ⟨(d :: ds).length, by simp, ?_, ?_, ?_⟩)
            · rw [hA]
              simp
            · refine (isSuff_iff _ _).2 ⟨x, ?_⟩
              rw [hw1, hA, List.take_left]
            · refine (isPref_iff _ _).2 ⟨y, ?_⟩
              rw [hB, hA, List.drop_left]
  · rintro (h | h | ⟨k, hk0, hkl, hsu, hpv⟩)
    · exact hasSub_append_left p u v h
    · exact hasSub_append_right p u v h
    · rcases (isSuff_iff _ _).1 hsu with ⟨t, rfl⟩
      rcases (isPref_iff _ _).1 hpv with ⟨y, rfl⟩
      refine (hasSub_iff _ _).2 ⟨t, y, ?_⟩
      conv_lhs => rw [List.append_assoc,
        ← List.append_assoc (List.take k p) (List.drop k p) y, List.take_append_drop]
      rw [List.append_assoc]

/-! ### Occurrence-count lemmas for insertions

`countOcc_insert_le` (the key lemma): splicing a block `T` into a string
cannot increase the number of occurrences of a pattern `p`, provided
`p` does not occur inside `T`, no proper prefix of `p` ends `T`, no
proper suffix of `p` starts `T`, and `T` is at least as long as `p`. -/

theorem countOcc_nil_of (p : Str) : countOcc p [] = 0 := rfl

theorem countOcc_pos_of_isPref (p : Str) (c : Char) (t : Str)
    (h : isPref p (c :: t) = true) : 0 < countOcc p (c :: t) := by
  simp [countOcc, h]

theorem countOcc_prepend_eq (p T : Str) (h0 : countOcc p T = 0)
    (hB : ∀ k, k < p.length → 0 < k → isSuff (p.take k) T = false) :
    ∀ b, countOcc p (T ++ b) = countOcc p b := by
  induction T with
  | nil => simp
  | cons c T' ih =>
    intro b
    have hpref : isPref p ((c :: T') ++ b) = false := by
      by_contra hc
      rw [Bool.not_eq_false] at hc
      by_cases hl : p.length ≤ (c :: T').length
      · have : isPref p (c :: T') = true := isPref_of_append p (c :: T') b hc hl
        have := countOcc_pos_of_isPref p c T' this
        omega
      · push_neg at hl
        rcases (isPref_iff _ _).1 hc with ⟨t, ht⟩
        have htake : (c :: T') = p.take (c :: T').length := by
          have := congrArg (List.take (c :: T').length) ht
          rw [List.take_left' rfl, List.take_append_of_le_length (by omega)] at this
          exact this
        have : isSuff (p.take (c :: T').length) (c :: T') = true := by
          rw [← htake]
          exact (isSuff_iff _ _).2 ⟨[], rfl⟩
        have hB' := hB (c :: T').length hl (by simp)
        rw [hB'] at this
        exact Bool.false_ne_true this
    have h0' : countOcc p T' = 0 := by
      have : countOcc p (c :: T') = (if isPref p (c :: T') then 1 else 0) + countOcc p T' := rfl
      omega
    have hB' : ∀ k, k < p.length → 0 < k → isSuff (p.take k) T' = false := by
      intro k hk hk0
      by_contra hc
      rw [Bool.not_eq_false] at hc
      have := isSuff_cons (p.take k) c T' hc
      rw [hB k hk hk0] at this
      exact Bool.false_ne_true this
    calc countOcc p ((c :: T') ++ b)
        = (if isPref p ((c :: T') ++ b) then 1 else 0) + countOcc p (T' ++ b) := rfl
      _ = countOcc p (T' ++ b) := by rw [hpref]; simp
      _ = countOcc p b := ih h0' hB' b

theorem countOcc_insert_le_core (p T : Str) (h0 : countOcc p T = 0)
    (hA : ∀ k, k < p.length → 0 < k → isPref (p.drop k) T = false)
    (hB : ∀ k, k < p.length → 0 < k → isSuff (p.take k) T = false)
    (hC : p.length ≤ T.length) :
    ∀ a b, countOcc p (a ++ T ++ b) ≤ countOcc p (a ++ b) := by
  intro a
  induction a with
  | nil =>
    intro b
    simp only [List.nil_append]
    rw [countOcc_prepend_eq p T h0 hB b]
  | cons c a' ih =>
    intro b
    have key : isPref p ((c :: a') ++ T ++ b) = true → isPref p ((c :: a') ++ b) = true := by
      intro h
      by_cases hl : p.length ≤ (c :: a').length
      · exact isPref_append_left p (c :: a') b
          (isPref_of_append p (c :: a') (T ++ b) (by rwa [List.append_assoc] at h) hl)
      · push_neg at hl
        have htake : (c :: a') = p.take (c :: a').length := by
          rcases (isPref_iff _ _).1 h with ⟨t, ht⟩
          have := congrArg (List.take (c :: a').length) ht
          rw [List.append_assoc] at this
          rw [List.take_left' rfl, List.take_append_of_le_length (by omega)] at this
          exact this
        exfalso
        rcases (isPref_iff _ _).1 h with ⟨t, ht⟩
        rw [List.append_assoc] at ht
        have hdropeq : T ++ b = p.drop (c :: a').length ++ t := by
          have h2 : (c :: a') ++ (T ++ b) = (c :: a') ++ (p.drop (c :: a').length ++ t) := by
            rw [ht, ← List.append_assoc]
            congr 1
            conv_lhs => rw [← List.take_append_drop (c :: a').length p]
            rw [← htake]
          exact List.append_cancel_left h2
        have hdl : (p.drop (c :: a').length).length = p.length - (c :: a').length := by simp
        by_cases hTl : (p.drop (c :: a').length).length ≤ T.length
        · have : isPref (p.drop (c :: a').length) T = true := by
            refine isPref_of_append _ T b ?_ hTl
            exact (isPref_iff _ _).2 ⟨t, hdropeq⟩
          rw [hA (c :: a').length hl (by simp)] at this
          exact Bool.false_ne_true this
        · push_neg at hTl
          rw [hdl] at hTl
          omega
    calc countOcc p ((c :: a') ++ T ++ b)
        = (if isPref p ((c :: a') ++ T ++ b) then 1 else 0) + countOcc p (a' ++ T ++ b) := rfl
      _ ≤ (if isPref p ((c :: a') ++ b) then 1 else 0) + countOcc p (a' ++ b) := by
          have h2 := ih b
          by_cases hp : isPref p ((c :: a') ++ T ++ b) = true
          · rw [hp, key hp]
            omega
          · rw [Bool.not_eq_true] at hp
            rw [hp]
            simp only [Bool.false_eq_true, if_false]
            by_cases hq : isPref p ((c :: a') ++ b) = true
            · rw [hq]; omega
            · rw [Bool.not_eq_true] at hq; rw [hq]; simpa using h2
      _ = countOcc p ((c :: a') ++ b) := rfl

theorem mem_of_getLast?_eq (l : Str) (c : Char) (h : l.getLast? = some c) : c ∈ l := by
  induction l with
  | nil => simp at h
  | cons a t ih =>
    cases t with
    | nil =>
      simp only [List.getLast?_singleton, Option.some.injEq] at h
      simp [h]
    | cons b t' =>
      rw [List.getLast?_cons_cons] at h
      exact List.mem_cons_of_mem a (ih h)

theorem getLast?_append_right (t q : Str) (hq : q ≠ []) :
    (t ++ q).getLast? = q.getLast? := by
  induction t with
  | nil => rfl
  | cons a t ih =>
    have htq : t ++ q ≠ [] := fun h => hq (List.append_eq_nil.mp h).2
    rcases List.exists_cons_of_ne_nil htq with ⟨b, l, hl⟩
    rw [List.cons_append, hl, List.getLast?_cons_cons, ← hl, ih]

theorem head?_append_left (q t : Str) (hq : q ≠ []) :
    (q ++ t).head? = q.head? := by
  rcases List.exists_cons_of_ne_nil hq with ⟨b, l, rfl⟩
  rfl

/-- Inserting a block immediately after a character `>` preserves existing
occurrences of any pattern that does not contain `>`. -/
theorem hasSub_insert_after_gt (p a T b : Str) (hgt : '>' ∉ p)
    (ha : a.getLast? = some '>') (h : hasSub p (a ++ b) = true) :
    hasSub p (a ++ T ++ b) = true := by
  rcases (hasSub_append_iff p a b).1 h with h1 | h1 | ⟨k, hk0, hkl, hsu, hpv⟩
  · exact hasSub_append_left p (a ++ T) b (hasSub_append_left p a T h1)
  · rw [List.append_assoc]
    exact hasSub_append_right p a (T ++ b) (hasSub_append_right p T b h1)
  · exfalso
    rcases (isSuff_iff _ _).1 hsu with ⟨t, hta⟩
    have hk : p.take k ≠ [] := by
      intro hn
      have hlen := congrArg List.length hn
      rw [List.length_take] at hlen
      simp only [List.length_nil] at hlen
      omega
    have hlast : (p.take k).getLast? = some '>' := by
      rw [hta] at ha
      rwa [getLast?_append_right t _ hk] at ha
    exact hgt (List.mem_of_mem_take (mem_of_getLast?_eq _ _ hlast))

/-- Inserting a block immediately before a character `<` preserves existing
occurrences of any pattern whose only `<` is its first character. -/
theorem hasSub_insert_before_lt (p a T b : Str) (hlt : '<' ∉ p.tail)
    (hb : b.head? = some '<') (h : hasSub p (a ++ b) = true) :
    hasSub p (a ++ T ++ b) = true := by
  rcases (hasSub_append_iff p a b).1 h with h1 | h1 | ⟨k, hk0, hkl, hsu, hpv⟩
  · exact hasSub_append_left p (a ++ T) b (hasSub_append_left p a T h1)
  · rw [List.append_assoc]
    exact hasSub_append_right p a (T ++ b) (hasSub_append_right p T b h1)
  · exfalso
    rcases (isPref_iff _ _).1 hpv with ⟨y, hby⟩
    have hk : p.drop k ≠ [] := by
      intro hn
      have hlen := congrArg List.length hn
      rw [List.length_drop] at hlen
      simp only [List.length_nil] at hlen
      omega
    have hhead : (p.drop k).head? = some '<' := by
      rw [hby] at hb
      rwa [head?_append_left _ y hk] at hb
    have hmem : '<' ∈ p.drop k := by
      rcases List.exists_cons_of_ne_nil hk with ⟨c, l, hl⟩
      rw [hl] at hhead
      simp only [List.head?_cons, Option.some.injEq] at hhead
      rw [hl, ← hhead]
      simp
    have hsplit : p.drop k = p.tail.drop (k - 1) := by
      obtain ⟨j, rfl⟩ : ∃ j, k = j + 1 := ⟨k - 1, by omega⟩
      cases p with
      | nil => simp
      | cons q qs => simp
    exact hlt (by rw [hsplit] at hmem; exact List.mem_of_mem_drop hmem)

/-! ### ASCII case folding

All fixed patterns used by the program's case-insensitive regular
expressions and `toLowerCase().includes(...)` tests are ASCII, so ASCII
folding is a faithful model of their matching behaviour. -/

def lowerC (c : Char) : Char :=
  if 'A' ≤ c ∧ c ≤ 'Z' then Char.ofNat (c.toNat + 32) else c

def lower (s : Str) : Str := s.map lowerC

theorem lower_append (u v : Str) : lower (u ++ v) = lower u ++ lower v :=
  List.map_append lowerC u v

theorem lower_length (s : Str) : (lower s).length = s.length := List.length_map s lowerC

theorem lower_cons (c : Char) (s : Str) : lower (c :: s) = lowerC c :: lower s := rfl

/-! ### The two escape transformations of the source

`escTerm` models `content.replace(/\*\//g, '* /')` (bundle synthesis,
non-script wrapping) and `escScript` models
`scripts.replace(/<\/script>/g, '<\\/script>')` (preview synthesis).
Both are the left-to-right, non-overlapping global replacement JavaScript
performs. -/

def starSlash : Str := str "*/"

def escTermF : Nat → Str → Str
  | _, [] => []
  | 0, c :: rest => c :: rest
  | n + 1, c :: rest =>
    if isPref starSlash (c :: rest) then
      '*' :: ' ' :: '/' :: escTermF n ((c :: rest).drop 2)
    else
      c :: escTermF n rest

/-- `content.replace(/\*\//g, '* /')`: the fuel argument of `escTermF` is
only a structural-recursion bound; it never runs out starting from the
input's length. -/
def escTerm (s : Str) : Str := escTermF s.length s

theorem escTermF_irrel : ∀ n m (s : Str), s.length ≤ n → s.length ≤ m →
    escTermF n s = escTermF m s := by
  intro n
  induction n with
  | zero =>
    intro m s hn _
    have : s = [] := List.eq_nil_of_length_eq_zero (by omega)
    subst this
    cases m <;> rfl
  | succ n ih =>
    intro m s hn hm
    cases s with
    | nil => cases m <;> rfl
    | cons c rest =>
      cases m with
      | zero => simp at hm
      | succ m' =>
        show (if isPref starSlash (c :: rest) then
            '*' :: ' ' :: '/' :: escTermF n ((c :: rest).drop 2)
          else c :: escTermF n rest) =
          (if isPref starSlash (c :: rest) then
            '*' :: ' ' :: '/' :: escTermF m' ((c :: rest).drop 2)
          else c :: escTermF m' rest)
        by_cases hp : isPref starSlash (c :: rest) = true
        · rw [if_pos hp, if_pos hp,
            ih m' ((c :: rest).drop 2) (by simp at hn ⊢; omega) (by simp at hm ⊢; omega)]
        · rw [if_neg hp, if_neg hp,
            ih m' rest (by simp at hn; omega) (by simp at hm; omega)]

theorem escTerm_cons (c : Char) (rest : Str) :
    escTerm (c :: rest) =
      if isPref starSlash (c :: rest) then
        '*' :: ' ' :: '/' :: escTerm ((c :: rest).drop 2)
      else c :: escTerm rest := by
  show (if isPref starSlash (c :: rest) then
      '*' :: ' ' :: '/' :: escTermF rest.length ((c :: rest).drop 2)
    else c :: escTermF rest.length rest) = _
  by_cases hp : isPref starSlash (c :: rest) = true
  · rw [if_pos hp, if_pos hp, escTerm,
      escTermF_irrel rest.length ((c :: rest).drop 2).length ((c :: rest).drop 2)
        (by simp) le_rfl]
  · rw [if_neg hp, if_neg hp]
    rfl

theorem escTerm_nil : escTerm [] = [] := rfl

theorem escTerm_pref_no_star (q : Str) (hq : '*' ∉ q) :
    ∀ s, isPref q (escTerm s) = true → isPref q s = true := by
  induction q with
  | nil => intro s _; rfl
  | cons q0 q' ih =>
    intro s h
    cases s with
    | nil => rw [escTerm_nil] at h; exact h
    | cons c rest =>
      rw [escTerm_cons] at h
      by_cases hp : isPref starSlash (c :: rest) = true
      · rw [if_pos hp] at h
        exfalso
        simp only [isPref, Bool.and_eq_true, beq_iff_eq] at h
        exact hq (by rw [h.1]; exact List.mem_cons_self _ _)
      · rw [if_neg hp] at h
        simp only [isPref, Bool.and_eq_true, beq_iff_eq] at h ⊢
        exact ⟨h.1, ih (fun hm => hq (List.mem_cons_of_mem _ hm)) rest h.2⟩

theorem hasSub_starSlash_esc_cons (Z : Str) :
    hasSub starSlash ('*' :: ' ' :: '/' :: Z) = hasSub starSlash Z := by
  simp only [hasSub]
  have e1 : ∀ u, isPref starSlash ('*' :: ' ' :: u) = false := by
    intro u; simp [starSlash, str, isPref]
  have e2 : ∀ u, isPref starSlash (' ' :: u) = false := by
    intro u; simp [starSlash, str, isPref]
  have e3 : ∀ u, isPref starSlash ('/' :: u) = false := by
    intro u; simp [starSlash, str, isPref]
  rw [e1, e2, e3]
  simp

theorem escTerm_no_term : ∀ n (s : Str), s.length ≤ n →
    hasSub starSlash (escTerm s) = false := by
  intro n
  induction n with
  | zero =>
    intro s hs
    have : s = [] := List.eq_nil_of_length_eq_zero (by omega)
    subst this
    rw [escTerm_nil]
    rfl
  | succ n ih =>
    intro s hs
    cases s with
    | nil => rw [escTerm_nil]; rfl
    | cons c rest =>
      rw [escTerm_cons]
      by_cases hp : isPref starSlash (c :: rest) = true
      · rw [if_pos hp]
        rw [hasSub_starSlash_esc_cons]
        exact ih _ (by simp only [List.drop_succ_cons, List.length_drop,
          List.length_cons] at hs ⊢; omega)
      · rw [if_neg hp]
        simp only [hasSub, Bool.or_eq_false_iff]
        constructor
        · by_contra hc
          rw [Bool.not_eq_false] at hc
          rcases (isPref_iff _ _).1 hc with ⟨t, ht⟩
          have hc0 : c = '*' := by
            have := congrArg List.head? ht
            simp [starSlash, str] at this
            exact this
          have htail : isPref (starSlash.drop 1) (escTerm rest) = true := by
            have := congrArg List.tail ht
            simp only [List.tail_cons] at this
            refine (isPref_iff _ _).2 ⟨t, ?_⟩
            rw [this]
            rfl
          have h2 : isPref (starSlash.drop 1) rest = true := by
            refine escTerm_pref_no_star _ ?_ rest htail
            simp [starSlash, str]
          have : isPref starSlash (c :: rest) = true := by
            rcases (isPref_iff _ _).1 h2 with ⟨t2, ht2⟩
            refine (isPref_iff _ _).2 ⟨t2, ?_⟩
            rw [hc0, ht2]
            rfl
          exact hp this
        · exact ih rest (by simp at hs; omega)

theorem escTerm_no_terminator (s : Str) : hasSub starSlash (escTerm s) = false :=
  escTerm_no_term s.length s le_rfl

def scriptClose : Str := str "</script>"

def scriptCloseEsc : Str := str "<\\/script>"

def escScriptF : Nat → Str → Str
  | _, [] => []
  | 0, c :: rest => c :: rest
  | n + 1, c :: rest =>
    if isPref scriptClose (c :: rest) then
      scriptCloseEsc ++ escScriptF n ((c :: rest).drop 9)
    else
      c :: escScriptF n rest

/-- `scripts.replace(/<\/script>/g, '<\\/script>')`: as with `escTermF`,
the fuel argument is only a structural-recursion bound. -/
def escScript (s : Str) : Str := escScriptF s.length s

theorem escScriptF_irrel : ∀ n m (s : Str), s.length ≤ n → s.length ≤ m →
    escScriptF n s = escScriptF m s := by
  intro n
  induction n with
  | zero =>
    intro m s hn _
    have : s = [] := List.eq_nil_of_length_eq_zero (by omega)
    subst this
    cases m <;> rfl
  | succ n ih =>
    intro m s hn hm
    cases s with
    | nil => cases m <;> rfl
    | cons c rest =>
      cases m with
      | zero => simp at hm
      | succ m' =>
        show (if isPref scriptClose (c :: rest) then
            scriptCloseEsc ++ escScriptF n ((c :: rest).drop 9)
          else c :: escScriptF n rest) =
          (if isPref scriptClose (c :: rest) then
            scriptCloseEsc ++ escScriptF m' ((c :: rest).drop 9)
          else c :: escScriptF m' rest)
        by_cases hp : isPref scriptClose (c :: rest) = true
        · rw [if_pos hp, if_pos hp,
            ih m' ((c :: rest).drop 9) (by simp at hn ⊢; omega) (by simp at hm ⊢; omega)]
        · rw [if_neg hp, if_neg hp,
            ih m' rest (by simp at hn; omega) (by simp at hm; omega)]

theorem escScript_cons (c : Char) (rest : Str) :
    escScript (c :: rest) =
      if isPref scriptClose (c :: rest) then
        scriptCloseEsc ++ escScript ((c :: rest).drop 9)
      else c :: escScript rest := by
  show (if isPref scriptClose (c :: rest) then
      scriptCloseEsc ++ escScriptF rest.length ((c :: rest).drop 9)
    else c :: escScriptF rest.length rest) = _
  by_cases hp : isPref scriptClose (c :: rest) = true
  · rw [if_pos hp, if_pos hp, escScript,
      escScriptF_irrel rest.length ((c :: rest).drop 9).length ((c :: rest).drop 9)
        (by simp) le_rfl]
  · rw [if_neg hp, if_neg hp]
    rfl

theorem escScript_nil : escScript [] = [] := rfl

/-- Characters other than `<` are untouched by `escScript` at the head:
if a `<`-free pattern is a leading segment of the escaped text, it was a
leading segment of the original text. -/
theorem escScript_pref_no_lt (q : Str) (hq : '<' ∉ q) :
    ∀ s, isPref q (escScript s) = true → isPref q s = true := by
  induction q with
  | nil => intro s _; rfl
  | cons q0 q' ih =>
    intro s h
    cases s with
    | nil => rw [escScript_nil] at h; exact h
    | cons c rest =>
      rw [escScript_cons] at h
      by_cases hp : isPref scriptClose (c :: rest) = true
      · rw [if_pos hp] at h
        exfalso
        rcases (isPref_iff _ _).1 h with ⟨t, ht⟩
        have := congrArg List.head? ht
        simp [scriptCloseEsc, str] at this
        exact hq (by rw [← this]; exact List.mem_cons_self _ _)
      · rw [if_neg hp] at h
        simp only [isPref, Bool.and_eq_true, beq_iff_eq] at h ⊢
        exact ⟨h.1, ih (fun hm => hq (List.mem_cons_of_mem _ hm)) rest h.2⟩

theorem hasSub_scriptClose_esc_cons (Z : Str) :
    hasSub scriptClose (scriptCloseEsc ++ Z) = hasSub scriptClose Z := by
  show hasSub scriptClose
      ('<' :: '\\' :: '/' :: 's' :: 'c' :: 'r' :: 'i' :: 'p' :: 't' :: '>' :: Z) = _
  simp only [hasSub]
  have e1 : ∀ u, isPref scriptClose ('<' :: '\\' :: u) = false := by
    intro u; simp [scriptClose, str, isPref]
  have e2 : ∀ u, isPref scriptClose ('\\' :: u) = false := by
    intro u; simp [scriptClose, str, isPref]
  have e3 : ∀ u, isPref scriptClose ('/' :: u) = false := by
    intro u; simp [scriptClose, str, isPref]
  have e4 : ∀ u, isPref scriptClose ('s' :: u) = false := by
    intro u; simp [scriptClose, str, isPref]
  have e5 : ∀ u, isPref scriptClose ('c' :: u) = false := by
    intro u; simp [scriptClose, str, isPref]
  have e6 : ∀ u, isPref scriptClose ('r' :: u) = false := by
    intro u; simp [scriptClose, str, isPref]
  have e7 : ∀ u, isPref scriptClose ('i' :: u) = false := by
    intro u; simp [scriptClose, str, isPref]
  have e8 : ∀ u, isPref scriptClose ('p' :: u) = false := by
    intro u; simp [scriptClose, str, isPref]
  have e9 : ∀ u, isPref scriptClose ('t' :: u) = false := by
    intro u; simp [scriptClose, str, isPref]
  have e10 : ∀ u, isPref scriptClose ('>' :: u) = false := by
    intro u; simp [scriptClose, str, isPref]
  rw [e1, e2, e3, e4, e5, e6, e7, e8, e9, e10]
  simp

theorem escScript_no_close : ∀ n (s : Str), s.length ≤ n →
    hasSub scriptClose (escScript s) = false := by
  intro n
  induction n with
  | zero =>
    intro s hs
    have : s = [] := List.eq_nil_of_length_eq_zero (by omega)
    subst this
    rw [escScript_nil]
    rfl
  | succ n ih =>
    intro s hs
    cases s with
    | nil => rw [escScript_nil]; rfl
    | cons c rest =>
      rw [escScript_cons]
      by_cases hp : isPref scriptClose (c :: rest) = true
      · rw [if_pos hp]
        rw [hasSub_scriptClose_esc_cons]
        exact ih _ (by simp only [List.drop_succ_cons, List.length_drop,
          List.length_cons] at hs ⊢; omega)
      · rw [if_neg hp]
        simp only [hasSub, Bool.or_eq_false_iff]
        constructor
        · by_contra hc
          rw [Bool.not_eq_false] at hc
          rcases (isPref_iff _ _).1 hc with ⟨t, ht⟩
          have hc0 : c = '<' := by
            have := congrArg List.head? ht
            simp [scriptClose, str] at this
            exact this
          have htail : isPref (scriptClose.drop 1) (escScript rest) = true := by
            have := congrArg List.tail ht
            simp only [List.tail_cons] at this
            refine (isPref_iff _ _).2 ⟨t, ?_⟩
            rw [this]
            rfl
          have h2 : isPref (scriptClose.drop 1) rest = true := by
            refine escScript_pref_no_lt _ ?_ rest htail
            simp [scriptClose, str]
          have : isPref scriptClose (c :: rest) = true := by
            rcases (isPref_iff _ _).1 h2 with ⟨t2, ht2⟩
            refine (isPref_iff _ _).2 ⟨t2, ?_⟩
            rw [hc0, ht2]
            rfl
          exact hp this
        · exact ih rest (by simp at hs; omega)


/-! ### JavaScript `String.prototype.replace` with a string replacement

When the replacement is a *string* (not a function), JavaScript processes
the GetSubstitution escape sequences in it: `$$`, `$&` (the matched text),
a dollar followed by a backquote (the text before the match) and a dollar
followed by a straight quote (the text after the match).  The patterns used
by this program have no capture groups, so `$n` stays literal. -/

def substDollar (m p s : Str) : Str → Str
  | [] => []
  | [c] => [c]
  | c :: d :: rest =>
    if c = '$' then
      if d = '$' then '$' :: substDollar m p s rest
      else if d = '&' then m ++ substDollar m p s rest
      else if d = Char.ofNat 96 then p ++ substDollar m p s rest
      else if d = Char.ofNat 39 then s ++ substDollar m p s rest
      else '$' :: d :: substDollar m p s rest
    else c :: substDollar m p s (d :: rest)

theorem substDollar_no_dollar (m p s : Str) :
    ∀ n R, R.length ≤ n → '$' ∉ R → substDollar m p s R = R := by
  intro n
  induction n with
  | zero =>
    intro R hR _
    have : R = [] := List.eq_nil_of_length_eq_zero (by omega)
    subst this
    rfl
  | succ n ih =>
    intro R hR h
    match R with
    | [] => rfl
    | [c] => rfl
    | c :: d :: rest =>
      have hc : ¬ (c = '$') := fun hc => h (by rw [hc]; exact List.mem_cons_self _ _)
      rw [substDollar, if_neg hc,
        ih (d :: rest) (by simp at hR ⊢; omega) (fun hm => h (List.mem_cons_of_mem _ hm))]

/-! ### First-match splitting for the program's literal patterns

`splitFirst pat s` models `s.replace(/pat/i, ...)`'s match search for a
fixed literal pattern `pat` (given lower-cased): it returns the text before
the first case-insensitive occurrence, the matched characters in their
original case, and the rest.  `splitTag tag s` does the same for the
`<tag[^>]*>` regular expressions (`/​<html[^>]*>/i`, `/<head[^>]*>/i`,
`/<body[^>]*>/i`): a match is a case-insensitive `<tag` followed by the
longest run of non-`>` characters and a closing `>`. -/

def splitFirst (pat : Str) : Str → Option (Str × Str × Str)
  | [] => none
  | c :: rest =>
    if isPref pat (lower (c :: rest)) then
      some ([], (c :: rest).take pat.length, (c :: rest).drop pat.length)
    else
      match splitFirst pat rest with
      | some (x, m, y) => some (c :: x, m, y)
      | none => none

theorem lower_take (s : Str) (n : Nat) : lower (s.take n) = (lower s).take n := by
  simp [lower, List.map_take]

theorem lower_drop (s : Str) (n : Nat) : lower (s.drop n) = (lower s).drop n := by
  simp [lower, List.map_drop]

theorem splitFirst_spec (pat : Str) : ∀ s x m y, splitFirst pat s = some (x, m, y) →
    s = x ++ m ++ y ∧ lower m = pat := by
  intro s
  induction s with
  | nil => intro x m y h; exact absurd h (by simp [splitFirst])
  | cons c rest ih =>
    intro x m y h
    rw [splitFirst] at h
    by_cases hp : isPref pat (lower (c :: rest)) = true
    · rw [if_pos hp] at h
      injection h with h
      injection h with hx h
      injection h with hm hy
      subst hx; subst hm; subst hy
      constructor
      · simp [List.take_append_drop]
      · rcases (isPref_iff _ _).1 hp with ⟨t, ht⟩
        rw [lower_take, ht, List.take_append_of_le_length (by simp), List.take_length]
    · rw [if_neg hp] at h
      cases hrec : splitFirst pat rest with
      | none => rw [hrec] at h; exact absurd h (by simp)
      | some r =>
        obtain ⟨x', m', y'⟩ := r
        rw [hrec] at h
        injection h with h
        injection h with hx h
        injection h with hm hy
        subst hx; subst hm; subst hy
        rcases ih x' m' y' hrec with ⟨hs, hl⟩
        refine ⟨?_, hl⟩
        simp only [List.cons_append]
        rw [← hs]

theorem splitFirst_none (pat : Str) (hpat : pat ≠ []) :
    ∀ s, splitFirst pat s = none → hasSub pat (lower s) = false := by
  intro s
  induction s with
  | nil =>
    intro _
    show (isPref pat [] = false)
    cases pat with
    | nil => exact absurd rfl hpat
    | cons a as => rfl
  | cons c rest ih =>
    intro h
    rw [splitFirst] at h
    by_cases hp : isPref pat (lower (c :: rest)) = true
    · rw [if_pos hp] at h
      exact absurd h (by simp)
    · rw [if_neg hp] at h
      have hrec : splitFirst pat rest = none := by
        cases hrec : splitFirst pat rest with
        | none => rfl
        | some r =>
          obtain ⟨x', m', y'⟩ := r
          rw [hrec] at h
          exact absurd h (by simp)
      have := ih hrec
      rw [lower_cons]
      simp only [hasSub, Bool.or_eq_false_iff]
      exact ⟨by rw [← lower_cons]; exact Bool.not_eq_true _ ▸ (Bool.eq_false_iff.2 hp), this⟩

def splitTag (tag : Str) : Str → Option (Str × Str × Str)
  | [] => none
  | c :: rest =>
    if isPref ('<' :: tag) (lower (c :: rest)) then
      let n := tag.length + 1
      let after := (c :: rest).drop n
      let run := after.takeWhile (fun ch => ch != '>')
      if run.length < after.length then
        some ([], (c :: rest).take n ++ run ++ ['>'], after.drop (run.length + 1))
      else
        match splitTag tag rest with
        | some (x, m, y) => some (c :: x, m, y)
        | none => none
    else
      match splitTag tag rest with
      | some (x, m, y) => some (c :: x, m, y)
      | none => none

theorem dropWhile_head_false (pr : Char → Bool) :
    ∀ (l : Str) (d : Char) (ds : Str), l.dropWhile pr = d :: ds → pr d = false := by
  intro l
  induction l with
  | nil => intro d ds h; exact absurd h (by simp)
  | cons a t ih =>
    intro d ds h
    rw [List.dropWhile_cons] at h
    by_cases ha : pr a = true
    · rw [if_pos ha] at h
      exact ih d ds h
    · rw [if_neg ha] at h
      injection h with h1 _
      rw [← h1]
      exact Bool.not_eq_true _ ▸ (Bool.eq_false_iff.2 ha)

theorem drop_takeWhile_length (pr : Char → Bool) :
    ∀ (l : Str), l.drop (l.takeWhile pr).length = l.dropWhile pr := by
  intro l
  induction l with
  | nil => rfl
  | cons a t ih =>
    rw [List.takeWhile_cons, List.dropWhile_cons]
    by_cases ha : pr a = true
    · rw [if_pos ha, if_pos ha]
      simpa using ih
    · rw [if_neg ha, if_neg ha]
      rfl

theorem splitTag_spec (tag : Str) : ∀ s x m y, splitTag tag s = some (x, m, y) →
    s = x ++ m ++ y ∧ m ≠ [] ∧ (lower m).head? = some '<' ∧
      (lower m).getLast? = some '>' := by
  intro s
  induction s with
  | nil => intro x m y h; exact absurd h (by simp [splitTag])
  | cons c rest ih =>
    intro x m y h
    rw [splitTag] at h
    simp only at h
    by_cases hp : isPref ('<' :: tag) (lower (c :: rest)) = true
    · rw [if_pos hp] at h
      set n := tag.length + 1 with hn
      set after := (c :: rest).drop n with hafter
      set run := after.takeWhile (fun ch => ch != '>') with hrun
      by_cases hlt : run.length < after.length
      · rw [if_pos hlt] at h
        injection h with h
        injection h with hx h
        injection h with hm hy
        subst hx; subst hm; subst hy
        -- decompose `after` as `run ++ '>' :: ds`
        have hdw : after.dropWhile (fun ch => ch != '>') ≠ [] := by
          intro hnil
          have hlen := congrArg List.length
            (List.takeWhile_append_dropWhile (p := fun ch => ch != '>') (l := after))
          rw [hnil] at hlen
          simp only [List.append_nil, List.length_append] at hlen
          rw [hlen] at hlt
          exact lt_irrefl _ hlt
        rcases List.exists_cons_of_ne_nil hdw with ⟨d, ds, hds⟩
        have hd : d = '>' := by
          have := dropWhile_head_false (fun ch => ch != '>') after d ds hds
          simpa using this
        have hafter_decomp : after = run ++ '>' :: ds := by
          conv_lhs => rw [← List.takeWhile_append_dropWhile (p := fun ch => ch != '>')
            (l := after), hds, hd]
        have hds_eq : after.drop (run.length + 1) = ds := by
          rw [hafter_decomp, show run ++ '>' :: ds = (run ++ ['>']) ++ ds by simp,
            show run.length + 1 = (run ++ ['>']).length by simp, List.drop_left]
        refine ⟨?_, ?_, ?_, ?_⟩
        · rw [hds_eq]
          conv_lhs => rw [← List.take_append_drop n (c :: rest), ← hafter, hafter_decomp]
          simp [List.append_assoc]
        · simp
        · have hcc : lowerC c = '<' := by
            rcases (isPref_iff _ _).1 hp with ⟨t, ht⟩
            have hh := congrArg List.head? ht
            rw [lower_cons, List.cons_append] at hh
            simp only [List.head?_cons, Option.some.injEq] at hh
            exact hh
          have htk : (c :: rest).take n = c :: rest.take (n - 1) := by
            rw [hn]
            simp [List.take_succ_cons]
          rw [htk]
          simp only [List.cons_append, lower_cons, List.head?_cons, Option.some.injEq]
          exact hcc
        · rw [lower_append, show lower ['>'] = ['>'] from by decide, List.getLast?_concat]
      · rw [if_neg hlt] at h
        cases hrec : splitTag tag rest with
        | none => rw [hrec] at h; exact absurd h (by simp)
        | some r =>
          obtain ⟨x', m', y'⟩ := r
          rw [hrec] at h
          injection h with h
          injection h with hx h
          injection h with hm hy
          subst hx; subst hm; subst hy
          rcases ih x' m' y' hrec with ⟨hs, hrest⟩
          refine ⟨?_, hrest⟩
          simp only [List.cons_append]
          rw [← hs]
    · rw [if_neg hp] at h
      cases hrec : splitTag tag rest with
      | none => rw [hrec] at h; exact absurd h (by simp)
      | some r =>
        obtain ⟨x', m', y'⟩ := r
        rw [hrec] at h
        injection h with h
        injection h with hx h
        injection h with hm hy
        subst hx; subst hm; subst hy
        rcases ih x' m' y' hrec with ⟨hs, hrest⟩
        refine ⟨?_, hrest⟩
        simp only [List.cons_append]
        rw [← hs]

/-- Model of `/<meta[^>]*charset/i.test` and `/<meta[^>]*viewport/i.test`:
somewhere a case-insensitive `<meta` is followed by the word with no `>`
in between. -/
def metaTest (w : Str) : Str → Bool
  | [] => false
  | c :: rest =>
    (isPref (str "<meta") (lower (c :: rest)) &&
      hasSub w (((lower (c :: rest)).drop 5).takeWhile (fun ch => ch != '>'))) ||
    metaTest w rest

/-! ## Data model

`FileEntry` (source `types.ts`): only the fields the verified core reads
are modelled; the random `id` and MIME `type` hint are identity/UI
bookkeeping.  `Diag` models a `Diagnostic` without its random `id` and
wall-clock `timestamp` (collision-resistant identity and timestamps are
nondeterministic environment effects; severity, message and log order are
what the claims speak about). -/

structure FileEntry where
  name : Str
  content : Str
  size : Nat
deriving DecidableEq

inductive DiagType
  | info
  | warning
  | error
deriving DecidableEq, BEq

structure Diag where
  dtype : DiagType
  message : Str
deriving DecidableEq

def isWarnDiag (d : Diag) : Bool := d.dtype == DiagType.warning

def warningsOf (l : List Diag) : List Diag := l.filter isWarnDiag

/-! ## File classification by name (source `getFileTypeInfo`, filters)

`lastSeg` models `name.split('.').pop()` and `getExt` adds the
`toLowerCase()`; `endsWith` models the anchored case-insensitive
name-pattern tests such as `/\.(html|htm)$/i.test(name)`. -/

def lastSeg (s : Str) : Str := (s.reverse.takeWhile (fun c => c != '.')).reverse

def getExt (name : Str) : Str := lower (lastSeg name)

def isScriptExt (e : Str) : Bool :=
  e == str "js" || e == str "ts" || e == str "jsx" || e == str "tsx"

def endsWith (p n : Str) : Bool := isSuff p (lower n)

def isMarkupName (n : Str) : Bool := endsWith (str ".html") n || endsWith (str ".htm") n

def isStyleName (n : Str) : Bool :=
  endsWith (str ".css") n || endsWith (str ".scss") n || endsWith (str ".less") n

def isScriptNameP (n : Str) : Bool :=
  endsWith (str ".js") n || endsWith (str ".ts") n || endsWith (str ".jsx") n ||
  endsWith (str ".tsx") n || endsWith (str ".mjs") n

def isJsNameBundle (n : Str) : Bool := isScriptNameP n || endsWith (str ".cjs") n

/-! ## Binary detector (source `isBinaryFile`, second app, lines 843-855)

The loop returns `true` at the first `0x00` byte, otherwise counts bytes
`< 7` or in `(13, 32)` and finally tests
`nonPrintableCount / bytes.length > 0.1`.  That floating-point comparison
is modelled exactly by `10 * count > len`: for a sample of length
`len ≤ 8192` the rational `count/len` differs from `1/10` by at least
`1/81920` whenever they differ at all, far above double rounding error,
and for the empty sample JavaScript computes `NaN > 0.1 = false`, matching
`10 * 0 > 0 = false`. -/

def isBinaryLoop : List Nat → Nat → Nat → Bool
  | [], count, len => decide (10 * count > len)
  | b :: rest, count, len =>
    if b = 0 then true
    else if b < 7 ∨ (13 < b ∧ b < 32) then isBinaryLoop rest (count + 1) len
    else isBinaryLoop rest count len

def isBinaryFile (bytes : List Nat) : Bool :=
  isBinaryLoop (bytes.take 8192) 0 (bytes.take 8192).length

/-- Modelled from the spec's words (§4.2 Binary Detector): operate on at
most the first 8192 bytes; if any sampled byte is `0x00` classify binary
immediately; otherwise classify binary exactly when the count of sampled
bytes in `[0x00,0x06]` and `(0x0D,0x1F]` exceeds 10% of the sample
length. -/
def isBinarySpec (bytes : List Nat) : Bool :=
  let sample := bytes.take 8192
  if sample.any (fun b => b == 0) then true
  else decide (10 * sample.countP (fun b => decide (b ≤ 6 ∨ (13 < b ∧ b ≤ 31))) > sample.length)

/-! ## Bundle synthesis and transform pipeline (first app, lines 196-320)

The timestamp (`new Date().toISOString()`) is an environment input and is
passed in as `ts`; Babel and Prettier are external collaborators passed as
functions whose failure case is the thrown error's message (the code only
consumes the message).  `viewMode`, the AI panels and `localStorage`
writes are UI/persistence effects outside the synthesized bundle and the
Diagnostic Log and are not part of this model. -/

def joinNl : List Str → Str
  | [] => []
  | [x] => x
  | x :: y :: rest => x ++ '\n' :: joinNl (y :: rest)

def mkHeader (ts : Str) (count : Nat) : Str :=
  str "/**\n * BundleBlitz ⚡\n * Generated: " ++ ts ++ str "\n * Files: " ++
    str (toString count) ++ str "\n */\n\n"

def wrapNonScript (name content : Str) : Str :=
  str "/*\n[Non-Script File: " ++ name ++ str "]\n\n" ++ escTerm content ++ str "\n*/"

/-- Everything of the non-script wrap before its final block terminator. -/
def wrapPrefix (name content : Str) : Str :=
  str "/*\n[Non-Script File: " ++ name ++ str "]\n\n" ++ escTerm content ++ str "\n"

theorem wrapNonScript_decomp (name content : Str) :
    wrapNonScript name content = wrapPrefix name content ++ starSlash := by
  unfold wrapNonScript wrapPrefix
  rw [show str "\n*/" = str "\n" ++ starSlash from by decide]
  simp [List.append_assoc]

def fileEmit (f : FileEntry) : Str :=
  str "// --- BEGIN " ++ f.name ++ str " (" ++ str (toString f.size) ++
    str " bytes) ---\n" ++
    (if isScriptExt (getExt f.name) then f.content else wrapNonScript f.name f.content) ++
    str "\n// --- END " ++ f.name ++ str " ---\n"

def synthesizeBundle (ts : Str) (files : List FileEntry) : Str :=
  mkHeader ts files.length ++ joinNl (files.map fileEmit)

def transpileStage (enabled : Bool) (babelTransform : Str → Except Str Str)
    (code : Str) : Str × List Diag :=
  if enabled then
    match babelTransform code with
    | .ok c =>
      if c = [] then (code, [⟨.info, str "Loading Babel for transpilation..."⟩])
      else (c, [⟨.info, str "Loading Babel for transpilation..."⟩,
                ⟨.info, str "Transpilation to ES5 successful."⟩])
    | .error e =>
      (code, [⟨.info, str "Loading Babel for transpilation..."⟩,
              ⟨.warning, str "Transpilation skipped: " ++
                (if e = [] then str "Syntax Error or Module Error" else e)⟩])
  else (code, [])

def formatStage (enabled : Bool) (prettierFormat : Str → Except Str Str)
    (code : Str) : Str × List Diag :=
  if enabled then
    match prettierFormat code with
    | .ok c =>
      (c, [⟨.info, str "Formatting code with Prettier..."⟩,
           ⟨.info, str "Code formatted successfully."⟩])
    | .error e =>
      (code, [⟨.info, str "Formatting code with Prettier..."⟩,
              ⟨.warning, str "Formatting failed: " ++
                (if e = [] then str "Unknown error" else e)⟩])
  else (code, [])

def runPipeline (eT eF : Bool) (bt pf : Str → Except Str Str) (code : Str) :
    Str × List Diag :=
  let r1 := transpileStage eT bt code
  let r2 := formatStage eF pf r1.1
  (r2.1, r1.2 ++ r2.2)

structure AppState where
  files : List FileEntry
  bundledCode : Str
  diagnostics : List Diag
deriving DecidableEq

def handleBundleV1 (ts : Str) (eT eF : Bool) (bt pf : Str → Except Str Str)
    (st : AppState) : AppState :=
  if st.files.length = 0 then
    { st with diagnostics := st.diagnostics ++ [⟨.warning, str "No files to bundle."⟩] }
  else
    let r := runPipeline eT eF bt pf (synthesizeBundle ts st.files)
    { files := st.files,
      bundledCode := r.1,
      diagnostics := st.diagnostics ++ r.2 ++
        [⟨.info, str "Bundle created successfully! Total size: " ++
          str (toString r.1.length) ++ str " bytes."⟩] }

/-! ## Ingestion (second app, `handleFilesSelected`, lines 1033-1092)

`JSON.parse` is an external collaborator; the validator consumes only
whether it throws (with which message), `Object.keys(v).length` and
`Array.isArray(v)`, so the parse result is abstracted to that shape.
`Object.keys` of an array yields its index keys, and of a boxed string its
character indices, hence those constructors carry lengths.  File contents
are taken as ASCII here, so the byte view handed to the binary detector is
the code-unit sequence of the decoded text. -/

inductive JsonVal
  | obj (keys : Nat)
  | arr (len : Nat)
  | jstr (len : Nat)
  | lit
deriving DecidableEq

def jsonKeys : JsonVal → Nat
  | .obj n => n
  | .arr n => n
  | .jstr n => n
  | .lit => 0

def jsonIsArray : JsonVal → Bool
  | .arr _ => true
  | _ => false

/-- `!text || text.trim().length === 0` (the trimmed characters). -/
def jsWhitespace (c : Char) : Bool :=
  c == ' ' || c == '\t' || c == '\n' || c == '\r' ||
  c == Char.ofNat 11 || c == Char.ofNat 12 || c == Char.ofNat 160

def isBlank (s : Str) : Bool := s.all jsWhitespace

/-- Per-file checks of `handleFilesSelected` (the Ingestion Validator):
the diagnostics recorded for one newly read non-binary file. -/
def validateFile (jp : Str → Except Str JsonVal) (name content : Str) : List Diag :=
  let ext := getExt name
  if isBlank content then
    let msg :=
      if ext = str "json" then
        str "JSON configuration file \"" ++ name ++ str "\" is completely empty."
      else if ext = str "md" then
        str "Markdown documentation \"" ++ name ++ str "\" has no content."
      else if ext = str "txt" then
        str "Plain text file \"" ++ name ++ str "\" is blank."
      else str "File \"" ++ name ++ str "\" is empty."
    [⟨.warning, msg⟩]
  else if ext = str "json" then
    match jp content with
    | .ok v =>
      if jsonKeys v = 0 ∧ jsonIsArray v = false then
        [⟨.info, str "JSON file \"" ++ name ++ str "\" is just an empty object."⟩]
      else []
    | .error e => [⟨.error, str "Invalid JSON in \"" ++ name ++ str "\": " ++ e⟩]
  else if ext = str "md" then
    if hasSub (str "#") content = false ∧ hasSub (str "- ") content = false ∧
        hasSub (str "* ") content = false then
      [⟨.info, str "Markdown document \"" ++ name ++
        str "\" appears to lack standard formatting (headers/lists)."⟩]
    else []
  else []

def contentBytes (content : Str) : List Nat := content.map Char.toNat

structure IngestAcc where
  entries : List FileEntry
  diags : List Diag
  binaryCount : Nat

def ingestLoop (jp : Str → Except Str JsonVal) :
    List (Str × Str) → IngestAcc → IngestAcc
  | [], acc => acc
  | (name, content) :: rest, acc =>
    if isBinaryFile (contentBytes content) then
      ingestLoop jp rest { acc with binaryCount := acc.binaryCount + 1 }
    else
      ingestLoop jp rest
        { acc with
          entries := acc.entries ++ [⟨name, content, content.length⟩],
          diags := acc.diags ++ validateFile jp name content }

def handleFilesSelectedV2 (jp : Str → Except Str JsonVal)
    (files : List (Str × Str)) : List FileEntry × List Diag :=
  let acc := ingestLoop jp files ⟨[], [], 0⟩
  let d1 := if 0 < acc.entries.length then
      acc.diags ++ [⟨.info, str "Successfully added " ++
        str (toString acc.entries.length) ++ str " file(s) to workspace."⟩]
    else acc.diags
  let d2 := if 0 < acc.binaryCount then
      d1 ++ [⟨.warning, str "Skipped " ++ str (toString acc.binaryCount) ++
        str " binary/system metadata file(s)."⟩]
    else d1
  (acc.entries, d2)

/-! ## Session restore on mount (first app lines 119-140, second app
lines 978-988)

`localStorage.getItem` of the two fixed keys is the pair of `Option`
inputs; `JSON.parse` + `Array.isArray` of the saved file list is
abstracted as `parseFiles` (`none` = parse threw or was not an array).
Result: (restored file list, restored bundle text, diagnostics). -/

def restoreV1 (savedCode savedFiles : Option Str)
    (parseFiles : Str → Option (List FileEntry)) :
    List FileEntry × Str × List Diag :=
  let fr : List FileEntry × Nat :=
    match savedFiles with
    | some sf =>
      match parseFiles sf with
      | some l => if 0 < l.length then (l, l.length) else ([], 0)
      | none => ([], 0)
    | none => ([], 0)
  match savedCode with
  | some c =>
    (fr.1, c, [⟨.info, str "Restored previous session: " ++ str (toString fr.2) ++
      str " files and bundled output loaded."⟩])
  | none => (fr.1, [], [])

def restoreV2 (savedCode savedFiles : Option Str)
    (parseFiles : Str → Option (List FileEntry)) : List FileEntry × Str :=
  (match savedFiles with
   | some sf => (parseFiles sf).getD []
   | none => [],
   match savedCode with
   | some c => c
   | none => [])

/-! ## Preview synthesis (second app, `constructPreview`, lines 857-946)

The function is written as the composition of its three source phases:
structural normalization, style injection, script injection.  The two
string-replacement call sites (`.replace(/<\/head>/i, ...)` and
`.replace(/<\/body>/i, ...)`) process GetSubstitution `$`-sequences, so
they go through `substDollar`; the function-replacement call sites keep
the match and splice literally. -/

def divRoot : Str := str "<div id=\"root\"></div>"

def previewHtmlContent (files : List FileEntry) : Str :=
  match files.find? (fun f => isMarkupName f.name) with
  | some f => if f.content = [] then divRoot else f.content
  | none => divRoot

def shellPre : Str :=
  str "<!DOCTYPE html>\n<html lang=\"en\">\n<head>\n  <meta charset=\"UTF-8\">\n  <meta name=\"viewport\" content=\"width=device-width, initial-scale=1.0\">\n  <title>BundleBlitz Preview</title>\n</head>\n<body>\n  "

def shellPost : Str := str "\n</body>\n</html>"

def headBlockT : Str :=
  str "\n<head>\n  <meta charset=\"UTF-8\">\n  <meta name=\"viewport\" content=\"width=device-width, initial-scale=1.0\">\n  <title>BundleBlitz Preview</title>\n</head>"

def charsetT : Str := str "\n  <meta charset=\"UTF-8\">"

def viewportT : Str :=
  str "\n  <meta name=\"viewport\" content=\"width=device-width, initial-scale=1.0\">"

def titleT : Str := str "\n  <title>BundleBlitz Preview</title>"

def structuralPhase (hc : Str) : Str :=
  let hasDocType := hasSub (str "<!doctype html") (lower hc)
  let hasHtmlTag := hasSub (str "<html") (lower hc)
  let hasHeadTag := hasSub (str "<head") (lower hc)
  -- the source also computes `hasBodyTag`, which it never reads
  let hasTitleTag := hasSub (str "<title") (lower hc)
  if !hasDocType && !hasHtmlTag then
    shellPre ++ hc ++ shellPost
  else if !hasHeadTag then
    match splitTag (str "html") hc with
    | some (x, m, y) => x ++ m ++ headBlockT ++ y
    | none => hc
  else
    let g1 := if !(metaTest (str "charset") hc) then
        match splitTag (str "head") hc with
        | some (x, m, y) => x ++ m ++ charsetT ++ y
        | none => hc
      else hc
    let g2 := if !(metaTest (str "viewport") g1) then
        match splitTag (str "head") g1 with
        | some (x, m, y) => x ++ m ++ viewportT ++ y
        | none => g1
      else g1
    if !hasTitleTag then
      match splitTag (str "head") g2 with
      | some (x, m, y) => x ++ m ++ titleT ++ y
      | none => g2
    else g2

def baseStyles : Str :=
  str "\n    :root \x7b \n      font-family: system-ui, -apple-system, sans-serif; \n      line-height: 1.5; \n      background-color: #ffffff; \n      color: #0f172a; \n    \x7d \n    @media (prefers-color-scheme: dark) \x7b \n      :root \x7b background-color: #0f172a; color: #f1f5f9; \x7d \n    \x7d\n    body \x7b margin: 0; padding: 0; \x7d\n  "

def userStyles (css : List FileEntry) : Str :=
  joinNl (css.map (fun f => str "/* --- " ++ f.name ++ str " --- */\n" ++ f.content))

def styleBlockOf (css : List FileEntry) : Str :=
  str "<style>\n" ++ baseStyles ++ str "\n" ++ userStyles css ++ str "\n</style>"

def stylePhase (css : List FileEntry) (s : Str) : Str :=
  let sb := styleBlockOf css
  if hasSub (str "</head>") (lower s) then
    match splitFirst (str "</head>") s with
    | some (x, m, y) => x ++ substDollar m x y (sb ++ str "\n</head>") ++ y
    | none => s
  else
    match splitTag (str "body") s with
    | some (x, m, y) => x ++ (str "<head>" ++ sb ++ str "</head>\n") ++ m ++ y
    | none => s

def previewScripts (files : List FileEntry) : Str :=
  joinNl ((files.filter (fun f => isScriptNameP f.name)).map
    (fun f => str "// --- " ++ f.name ++ str " ---\n" ++ f.content))

def scriptOpen : Str := str "<script type=\"module\">"

def previewScriptBlock (files : List FileEntry) : Str :=
  scriptOpen ++ str "\n" ++ escScript (previewScripts files) ++ str "\n" ++ scriptClose

def scriptPhase (files : List FileEntry) (s : Str) : Str :=
  let jsFiles := files.filter (fun f => isScriptNameP f.name)
  if 0 < jsFiles.length then
    let sb := previewScriptBlock files
    if hasSub (str "</body>") (lower s) then
      match splitFirst (str "</body>") s with
      | some (x, m, y) => x ++ substDollar m x y (sb ++ str "\n</body>") ++ y
      | none => s
    else s ++ str "\n" ++ sb
  else s

def constructPreview (files : List FileEntry) : Str :=
  scriptPhase files
    (stylePhase (files.filter (fun f => isStyleName f.name))
      (structuralPhase (previewHtmlContent files)))

/-! ## Build trigger of the second app (`handleBundle`, lines 1094-1140)

Babel and the static-analysis collaborator (`performStaticLint`, which
feeds `runEslint`) are parameters; `localStorage` persistence is outside
the modelled state. -/

inductive BundleType
  | JS
  | HTML
deriving DecidableEq

structure LintMsg where
  line : Nat
  severity : Nat
  message : Str
  ruleId : Str

def eslintDiags (msgs : List LintMsg) : List Diag :=
  if msgs.length = 0 then [⟨.info, str "ESLint: No static style issues found."⟩]
  else msgs.map (fun msg =>
    ⟨if msg.severity = 2 then .error else .warning,
     str "[ESLint] Line " ++ str (toString msg.line) ++ str ": " ++ msg.message ++
       str " (" ++ msg.ruleId ++ str ")"⟩)

def isCtrlStripped (c : Char) : Bool :=
  decide (c.toNat ≤ 8) || decide (c.toNat = 11) || decide (c.toNat = 12) ||
  (decide (14 ≤ c.toNat) && decide (c.toNat ≤ 31)) ||
  (decide (127 ≤ c.toNat) && decide (c.toNat ≤ 159))

/-- `finalCode.replace(/[\x00-\x08\x0B\x0C\x0E-\x1F\x7F-\x9F]/g, "")`. -/
def sanitizeControl (s : Str) : Str := s.filter (fun c => ! isCtrlStripped c)

/-- `msg.split('\n')[0]`. -/
def firstLine (s : Str) : Str := s.takeWhile (fun c => c != '\n')

def handleBundleV2 (bty : BundleType) (eT : Bool) (babel : Str → Except Str Str)
    (eslint : Str → List LintMsg) (st : AppState) : AppState :=
  if st.files.length = 0 then st
  else
    let jsFiles := st.files.filter (fun f => isJsNameBundle f.name)
    let build : Except Str (Str × List Diag) :=
      match bty with
      | .HTML => .ok (constructPreview st.files, [])
      | .JS =>
        if jsFiles.length = 0 then
          .ok (joinNl (st.files.map (fun f =>
              str "// --- " ++ f.name ++ str " ---\n" ++ f.content ++ str "\n")),
            [⟨.warning, str "No JS/TS source files found. Bundling remaining text assets as generic source."⟩])
        else
          let fc := joinNl (jsFiles.map (fun f =>
            str "// --- " ++ f.name ++ str " ---\n" ++ f.content ++ str "\n"))
          if eT then
            match babel (sanitizeControl fc) with
            | .ok c => .ok ((if c = [] then fc else c), [])
            | .error e =>
              .error (str "Syntax Error in workspace code: " ++ firstLine e ++
                str ". Ensure you are not bundling non-JS files.")
          else .ok (fc, [])
    match build with
    | .ok (c, dmid) =>
      { files := st.files,
        bundledCode := c,
        diagnostics := st.diagnostics ++ dmid ++
          [⟨.info, str "Workspace bundled successfully as " ++
            (match bty with | .JS => str "JS" | .HTML => str "HTML") ++ str "."⟩] ++
          (if c = [] then [] else eslintDiags (eslint c)) }
    | .error msg =>
      { st with diagnostics := st.diagnostics ++ [⟨.error, msg⟩] }

/-- Content of the first module-script region of a document: the text
between the first `<script type="module">` and the next `</script>`
(where an HTML parser would end the script element). -/
def scriptRegionInterior (doc : Str) : Str :=
  match splitFirst scriptOpen doc with
  | some (_, _, afterOpen) =>
    match splitFirst scriptClose afterOpen with
    | some (inner, _, _) => inner
    | none => afterOpen
  | none => []

/-! ## General refutation helpers -/

theorem isSuff_of_append (p u v : Str) (h : isSuff p (u ++ v) = true)
    (hl : p.length ≤ v.length) : isSuff p v = true := by
  unfold isSuff at h ⊢
  rw [List.reverse_append] at h
  exact isPref_of_append _ _ _ h (by simpa using hl)

theorem hasSub_append_false (p u v : Str) (hu : hasSub p u = false)
    (hv : hasSub p v = false)
    (hj : ∀ k, k < p.length → 0 < k →
      isSuff (p.take k) u = false ∨ isPref (p.drop k) v = false) :
    hasSub p (u ++ v) = false := by
  by_contra hc
  rw [Bool.not_eq_false] at hc
  rcases (hasSub_append_iff p u v).1 hc with h | h | ⟨k, hk0, hkl, hsu, hpv⟩
  · rw [hu] at h; exact Bool.false_ne_true h
  · rw [hv] at h; exact Bool.false_ne_true h
  · rcases hj k hkl hk0 with h' | h'
    · rw [h'] at hsu; exact Bool.false_ne_true hsu
    · rw [h'] at hpv; exact Bool.false_ne_true hpv

/-! ### Occurrence accounting for the preview synthesizer's injections

`insOK p T` collects the decidable side conditions under which splicing
the (lower-cased) block `T` anywhere into a document cannot increase the
number of occurrences of the pattern `p`. -/

def insOK (p T : Str) : Prop :=
  countOcc p (lower T) = 0 ∧
  (∀ k, k < p.length → 0 < k → isPref (p.drop k) (lower T) = false) ∧
  (∀ k, k < p.length → 0 < k → isSuff (p.take k) (lower T) = false) ∧
  p.length ≤ T.length

instance (p T : Str) : Decidable (insOK p T) := by
  unfold insOK
  infer_instance

theorem countOcc_insert_le (p T : Str) (h : insOK p T) (a b : Str) :
    countOcc p (a ++ lower T ++ b) ≤ countOcc p (a ++ b) := by
  obtain ⟨h0, hA, hB, hC⟩ := h
  exact countOcc_insert_le_core p (lower T) h0 hA hB
    (by rw [lower_length]; exact hC) a b

theorem splitTag_insert_count (p INS tag : Str) (h : insOK p INS)
    (s x m y : Str) (hsp : splitTag tag s = some (x, m, y)) :
    countOcc p (lower (x ++ m ++ INS ++ y)) ≤ countOcc p (lower s) := by
  obtain ⟨hs, -, -, -⟩ := splitTag_spec tag s x m y hsp
  rw [hs]
  have e1 : lower (x ++ m ++ INS ++ y) =
      (lower x ++ lower m) ++ lower INS ++ lower y := by
    simp [lower_append]
  have e2 : lower (x ++ m ++ y) = (lower x ++ lower m) ++ lower y := by
    simp [lower_append]
  rw [e1, e2]
  exact countOcc_insert_le p INS h (lower x ++ lower m) (lower y)

theorem guarded_insert_count (p INS tag : Str) (h : insOK p INS) (s : Str)
    (b : Bool) :
    countOcc p (lower (if b = true then
      match splitTag tag s with
      | some (x, m, y) => x ++ m ++ INS ++ y
      | none => s
    else s)) ≤ countOcc p (lower s) := by
  by_cases hb : b = true
  · rw [if_pos hb]
    cases hsp : splitTag tag s with
    | none => exact le_refl _
    | some r =>
      obtain ⟨x, m, y⟩ := r
      exact splitTag_insert_count p INS tag h s x m y hsp
  · rw [if_neg hb]

/-- Replacing a middle block `M0` by anything preserves an occurrence of a
pattern that cannot touch `M0`: the pattern does not occur in `M0`, no
proper prefix of it ends `M0`, and none of its proper tails starts like
`M0`. -/
theorem hasSub_mid_replace (p X M0 Y Z : Str) (hM0 : M0 ≠ [])
    (hM : hasSub p M0 = false)
    (hsf : ∀ k, k < p.length → 0 < k → isSuff (p.take k) M0 = false)
    (hdh : ∀ k, k < p.length → 0 < k → (p.drop k).head? ≠ M0.head?)
    (h : hasSub p (X ++ M0 ++ Y) = true) :
    hasSub p (X ++ Z ++ Y) = true := by
  rw [List.append_assoc] at h
  rcases (hasSub_append_iff p X (M0 ++ Y)).1 h with h1 | h1 | ⟨k, hk0, hkl, hsu, hpv⟩
  · exact hasSub_append_left p (X ++ Z) Y (hasSub_append_left p X Z h1)
  · rcases (hasSub_append_iff p M0 Y).1 h1 with h2 | h2 | ⟨k, hk0, hkl, hsu, hpv⟩
    · rw [hM] at h2
      exact absurd h2 Bool.false_ne_true
    · rw [List.append_assoc]
      exact hasSub_append_right p X (Z ++ Y) (hasSub_append_right p Z Y h2)
    · rw [hsf k hkl hk0] at hsu
      exact absurd hsu Bool.false_ne_true
  · exfalso
    have hne : p.drop k ≠ [] := by
      intro hn
      have hlen := congrArg List.length hn
      rw [List.length_drop] at hlen
      simp only [List.length_nil] at hlen
      omega
    have hhd : (p.drop k).head? = (M0 ++ Y).head? := by
      rcases (isPref_iff _ _).1 hpv with ⟨t, ht⟩
      rw [ht, head?_append_left _ _ hne]
    rw [head?_append_left M0 Y hM0] at hhd
    exact hdh k hkl hk0 hhd

theorem splitTag_pres (p : Str) (hgt : '>' ∉ p) (tag INS s x m y : Str)
    (hsp : splitTag tag s = some (x, m, y)) (h : hasSub p (lower s) = true) :
    hasSub p (lower (x ++ m ++ INS ++ y)) = true := by
  obtain ⟨hs, hmne, hmh, hml⟩ := splitTag_spec tag s x m y hsp
  have hlmne : lower m ≠ [] := by
    intro hn
    refine hmne (List.length_eq_zero.mp ?_)
    rw [← lower_length m, hn, List.length_nil]
  have ha : (lower x ++ lower m).getLast? = some '>' := by
    rw [getLast?_append_right (lower x) (lower m) hlmne]
    exact hml
  have h' : hasSub p ((lower x ++ lower m) ++ lower y) = true := by
    rw [hs] at h
    simpa [lower_append] using h
  have hres := hasSub_insert_after_gt p (lower x ++ lower m) (lower INS)
    (lower y) hgt ha h'
  simpa [lower_append, List.append_assoc] using hres

theorem guarded_insert_pres (p : Str) (hgt : '>' ∉ p) (tag INS s : Str)
    (b : Bool) (h : hasSub p (lower s) = true) :
    hasSub p (lower (if b = true then
      match splitTag tag s with
      | some (x, m, y) => x ++ m ++ INS ++ y
      | none => s
    else s)) = true := by
  by_cases hb : b = true
  · rw [if_pos hb]
    cases hsp : splitTag tag s with
    | none => exact h
    | some r =>
      obtain ⟨x, m, y⟩ := r
      exact splitTag_pres p hgt tag INS s x m y hsp h
  · rw [if_neg hb]
    exact h

/-! ### Per-phase lemmas for the second preview run -/

theorem structural_pres (p : Str) (hgt : '>' ∉ p) (hc : Str)
    (h : hasSub p (lower hc) = true) :
    hasSub p (lower (structuralPhase hc)) = true := by
  rw [structuralPhase]
  simp only []
  by_cases hshell : (!hasSub (str "<!doctype html") (lower hc) &&
      !hasSub (str "<html") (lower hc)) = true
  · rw [if_pos hshell]
    simp only [lower_append]
    exact hasSub_append_left _ _ _ (hasSub_append_right _ _ _ h)
  · rw [if_neg hshell]
    by_cases hhd : (!hasSub (str "<head") (lower hc)) = true
    · rw [if_pos hhd]
      cases hsp : splitTag (str "html") hc with
      | none => exact h
      | some r =>
        obtain ⟨x, m, y⟩ := r
        exact splitTag_pres p hgt (str "html") headBlockT hc x m y hsp h
    · rw [if_neg hhd]
      exact guarded_insert_pres p hgt (str "head") titleT _ _
        (guarded_insert_pres p hgt (str "head") viewportT _ _
          (guarded_insert_pres p hgt (str "head") charsetT hc _ h))

theorem structural_doc (hc : Str) :
    (hasSub (str "<!doctype html") (lower (structuralPhase hc)) ||
      hasSub (str "<html") (lower (structuralPhase hc))) = true := by
  by_cases hd : hasSub (str "<!doctype html") (lower hc) = true
  · rw [structural_pres (str "<!doctype html") (by decide) hc hd]
    rfl
  · by_cases hh : hasSub (str "<html") (lower hc) = true
    · rw [structural_pres (str "<html") (by decide) hc hh, Bool.or_true]
    · have hdf : hasSub (str "<!doctype html") (lower hc) = false := by
        rwa [Bool.not_eq_true] at hd
      have hhf : hasSub (str "<html") (lower hc) = false := by
        rwa [Bool.not_eq_true] at hh
      have hsh : structuralPhase hc = shellPre ++ hc ++ shellPost := by
        rw [structuralPhase]
        simp only []
        rw [if_pos (show (!hasSub (str "<!doctype html") (lower hc) &&
          !hasSub (str "<html") (lower hc)) = true from by rw [hdf, hhf]; rfl)]
      rw [hsh]
      have hdoc : hasSub (str "<!doctype html")
          (lower (shellPre ++ hc ++ shellPost)) = true := by
        simp only [lower_append]
        exact hasSub_append_left _ _ _ (hasSub_append_left _ _ _ (by decide))
      rw [hdoc]
      rfl

theorem structural_count (p : Str) (hhb : insOK p headBlockT)
    (hcs : insOK p charsetT) (hvp : insOK p viewportT) (htt : insOK p titleT)
    (hc : Str)
    (hdoc : (hasSub (str "<!doctype html") (lower hc) ||
      hasSub (str "<html") (lower hc)) = true) :
    countOcc p (lower (structuralPhase hc)) ≤ countOcc p (lower hc) := by
  have hsh : (!hasSub (str "<!doctype html") (lower hc) &&
      !hasSub (str "<html") (lower hc)) = false := by
    rw [Bool.or_eq_true] at hdoc
    rcases hdoc with h | h
    · rw [h]
      rfl
    · rw [h]
      simp
  rw [structuralPhase]
  simp only []
  rw [if_neg (show ¬ ((!hasSub (str "<!doctype html") (lower hc) &&
    !hasSub (str "<html") (lower hc)) = true) from by
      rw [hsh]; exact Bool.false_ne_true)]
  by_cases hhd : (!hasSub (str "<head") (lower hc)) = true
  · rw [if_pos hhd]
    cases hsp : splitTag (str "html") hc with
    | none => exact le_refl _
    | some r =>
      obtain ⟨x, m, y⟩ := r
      exact splitTag_insert_count p headBlockT (str "html") hhb hc x m y hsp
  · rw [if_neg hhd]
    exact le_trans (guarded_insert_count p titleT (str "head") htt _ _)
      (le_trans (guarded_insert_count p viewportT (str "head") hvp _ _)
        (guarded_insert_count p charsetT (str "head") hcs hc _))

theorem style_pres (p : Str) (hlt : '<' ∉ p.tail)
    (hM : hasSub p (str "</head>") = false)
    (hsf : ∀ k, k < p.length → 0 < k → isSuff (p.take k) (str "</head>") = false)
    (hdh : ∀ k, k < p.length → 0 < k → (p.drop k).head? ≠ (str "</head>").head?)
    (css : List FileEntry) (s : Str) (h : hasSub p (lower s) = true) :
    hasSub p (lower (stylePhase css s)) = true := by
  rw [stylePhase]
  by_cases hh : hasSub (str "</head>") (lower s) = true
  · rw [if_pos hh]
    cases hsp : splitFirst (str "</head>") s with
    | none => exact h
    | some r =>
      obtain ⟨x, m, y⟩ := r
      simp only []
      obtain ⟨hs, hm⟩ := splitFirst_spec _ s x m y hsp
      have h' : hasSub p (lower x ++ str "</head>" ++ lower y) = true := by
        rw [hs] at h
        simpa [lower_append, hm] using h
      have hres := hasSub_mid_replace p (lower x) (str "</head>") (lower y)
        (lower (substDollar m x y (styleBlockOf css ++ str "\n</head>")))
        (by decide) hM hsf hdh h'
      simpa [lower_append] using hres
  · rw [if_neg hh]
    cases hsp : splitTag (str "body") s with
    | none => exact h
    | some r =>
      obtain ⟨x, m, y⟩ := r
      simp only []
      obtain ⟨hs, hmne, hmh, hml⟩ := splitTag_spec _ s x m y hsp
      have hlmne : lower m ≠ [] := by
        intro hn
        refine hmne (List.length_eq_zero.mp ?_)
        rw [← lower_length m, hn, List.length_nil]
      have hb : (lower m ++ lower y).head? = some '<' := by
        rw [head?_append_left _ _ hlmne]
        exact hmh
      have h' : hasSub p (lower x ++ (lower m ++ lower y)) = true := by
        rw [hs] at h
        simpa [lower_append, List.append_assoc] using h
      have hres := hasSub_insert_before_lt p (lower x)
        (lower (str "<head>" ++ styleBlockOf css ++ str "</head>\n"))
        (lower m ++ lower y) hlt hb h'
      simpa [lower_append, List.append_assoc] using hres

theorem script_pres (p : Str)
    (hM : hasSub p (str "</body>") = false)
    (hsf : ∀ k, k < p.length → 0 < k → isSuff (p.take k) (str "</body>") = false)
    (hdh : ∀ k, k < p.length → 0 < k → (p.drop k).head? ≠ (str "</body>").head?)
    (files : List FileEntry) (s : Str) (h : hasSub p (lower s) = true) :
    hasSub p (lower (scriptPhase files s)) = true := by
  rw [scriptPhase]
  simp only []
  by_cases hjs : 0 < (files.filter (fun f => isScriptNameP f.name)).length
  · rw [if_pos hjs]
    by_cases hb : hasSub (str "</body>") (lower s) = true
    · rw [if_pos hb]
      cases hsp : splitFirst (str "</body>") s with
      | none => exact h
      | some r =>
        obtain ⟨x, m, y⟩ := r
        simp only []
        obtain ⟨hs, hm⟩ := splitFirst_spec _ s x m y hsp
        have h' : hasSub p (lower x ++ str "</body>" ++ lower y) = true := by
          rw [hs] at h
          simpa [lower_append, hm] using h
        have hres := hasSub_mid_replace p (lower x) (str "</body>") (lower y)
          (lower (substDollar m x y (previewScriptBlock files ++ str "\n</body>")))
          (by decide) hM hsf hdh h'
        simpa [lower_append] using hres
    · rw [if_neg hb]
      simp only [lower_append]
      exact hasSub_append_left _ _ _ (hasSub_append_left _ _ _ h)
  · rw [if_neg hjs]
    exact h

theorem styleNilCount (p : Str)
    (h1 : insOK p (styleBlockOf [] ++ str "\n"))
    (h2 : insOK p (str "<head>" ++ styleBlockOf [] ++ str "</head>\n"))
    (s : Str) :
    countOcc p (lower (stylePhase [] s)) ≤ countOcc p (lower s) := by
  rw [stylePhase]
  by_cases hh : hasSub (str "</head>") (lower s) = true
  · rw [if_pos hh]
    cases hsp : splitFirst (str "</head>") s with
    | none => exact le_refl _
    | some r =>
      obtain ⟨x, m, y⟩ := r
      simp only []
      obtain ⟨hs, hm⟩ := splitFirst_spec _ s x m y hsp
      have hsub : substDollar m x y (styleBlockOf [] ++ str "\n</head>") =
          styleBlockOf [] ++ str "\n</head>" :=
        substDollar_no_dollar m x y (styleBlockOf [] ++ str "\n</head>").length _
          le_rfl (by decide)
      have esplit : styleBlockOf [] ++ str "\n</head>" =
          (styleBlockOf [] ++ str "\n") ++ str "</head>" := by
        rw [List.append_assoc]
        congr 1
      have hkey := countOcc_insert_le p (styleBlockOf [] ++ str "\n") h1
        (lower x) (str "</head>" ++ lower y)
      rw [hsub, hs, esplit]
      have e1 : lower (x ++ ((styleBlockOf [] ++ str "\n") ++ str "</head>") ++ y) =
          lower x ++ lower (styleBlockOf [] ++ str "\n") ++
            (str "</head>" ++ lower y) := by
        simp only [lower_append, List.append_assoc]
        rw [show lower (str "</head>") = str "</head>" from by decide]
      have e2 : lower (x ++ m ++ y) = lower x ++ (str "</head>" ++ lower y) := by
        simp only [lower_append, List.append_assoc]
        rw [hm]
      rw [e1, e2]
      simpa [List.append_assoc] using hkey
  · rw [if_neg hh]
    cases hsp : splitTag (str "body") s with
    | none => exact le_refl _
    | some r =>
      obtain ⟨x, m, y⟩ := r
      simp only []
      obtain ⟨hs, -, -, -⟩ := splitTag_spec _ s x m y hsp
      have hkey := countOcc_insert_le p
        (str "<head>" ++ styleBlockOf [] ++ str "</head>\n") h2
        (lower x) (lower m ++ lower y)
      rw [hs]
      have e1 : lower (x ++ (str "<head>" ++ styleBlockOf [] ++ str "</head>\n")
            ++ m ++ y) =
          lower x ++ lower (str "<head>" ++ styleBlockOf [] ++ str "</head>\n")
            ++ (lower m ++ lower y) := by
        simp only [lower_append, List.append_assoc]
      have e2 : lower (x ++ m ++ y) = lower x ++ (lower m ++ lower y) := by
        simp only [lower_append, List.append_assoc]
      rw [e1, e2]
      exact hkey

/-- Every synthesized preview carries a doctype declaration or an html
root: the full-shell wrap introduces one and every later operation
preserves it. -/
theorem preview_doc (files : List FileEntry) :
    (hasSub (str "<!doctype html") (lower (constructPreview files)) ||
      hasSub (str "<html") (lower (constructPreview files))) = true := by
  rw [constructPreview]
  have hsd := structural_doc (previewHtmlContent files)
  rw [Bool.or_eq_true] at hsd
  rcases hsd with h | h
  · rw [script_pres (str "<!doctype html") (by decide) (by decide) (by decide)
      files _
      (style_pres (str "<!doctype html") (by decide) (by decide) (by decide)
        (by decide) (files.filter (fun f => isStyleName f.name)) _ h)]
    rfl
  · rw [script_pres (str "<html") (by decide) (by decide) (by decide) files _
      (style_pres (str "<html") (by decide) (by decide) (by decide)
        (by decide) (files.filter (fun f => isStyleName f.name)) _ h),
      Bool.or_true]

def fs3 : List FileEntry :=
  [⟨str "a.html", str "<title>T</title><html", 21⟩, ⟨str "b.js", str "x", 1⟩]

def fs9 : List FileEntry :=
  [⟨str "a.html", str "<html><head></head><body></body><script>x</script></html>", 58⟩,
   ⟨str "b.js", ['$', Char.ofNat 39], 2⟩]

/-! ## The claims -/

/-- C10: the binary detector on an empty byte content returns `false`
(the 10% threshold test over a zero-byte sample — in the source a
`NaN > 0.1` comparison — never classifies an empty file as binary), so
empty files proceed to text ingestion. -/
theorem C10_empty_not_binary : isBinaryFile [] = false := by decide

theorem isBinaryLoop_spec : ∀ (l : List Nat) (count len : Nat),
    isBinaryLoop l count len =
      if l.any (fun b => b == 0) then true
      else decide (10 * (count +
        l.countP (fun b => decide (b ≤ 6 ∨ (13 < b ∧ b ≤ 31)))) > len) := by
  intro l
  induction l with
  | nil =>
    intro count len
    simp [isBinaryLoop]
  | cons b rest ih =>
    intro count len
    by_cases hb : b = 0
    · subst hb
      rw [isBinaryLoop]
      simp
    · rw [isBinaryLoop, if_neg hb]
      have hany : ((b :: rest).any (fun x => x == 0)) = rest.any (fun x => x == 0) := by
        simp [hb]
      by_cases hnp : b < 7 ∨ (13 < b ∧ b < 32)
      · have hpb : decide (b ≤ 6 ∨ (13 < b ∧ b ≤ 31)) = true := by
          simp only [decide_eq_true_eq]
          omega
        have hcp : List.countP (fun x => decide (x ≤ 6 ∨ (13 < x ∧ x ≤ 31))) (b :: rest) =
            List.countP (fun x => decide (x ≤ 6 ∨ (13 < x ∧ x ≤ 31))) rest + 1 := by
          simp [List.countP_cons, hpb]
          omega
        rw [if_pos hnp, ih, hany, hcp]
        by_cases ha : rest.any (fun x => x == 0) = true
        · rw [if_pos ha, if_pos ha]
        · rw [Bool.not_eq_true] at ha
          rw [ha]
          simp only [Bool.false_eq_true, if_false]
          rw [decide_eq_decide]
          omega
      · have hpb : decide (b ≤ 6 ∨ (13 < b ∧ b ≤ 31)) = false := by
          simp only [decide_eq_false_iff_not]
          omega
        have hcp : List.countP (fun x => decide (x ≤ 6 ∨ (13 < x ∧ x ≤ 31))) (b :: rest) =
            List.countP (fun x => decide (x ≤ 6 ∨ (13 < x ∧ x ≤ 31))) rest := by
          simp [List.countP_cons, hpb]
          omega
        rw [if_neg hnp, ih, hany, hcp]

/-- C2: the binary detector samples at most the first 8192 bytes, returns
`true` as soon as a sampled byte is `0x00`, and otherwise returns `true`
exactly when the count of sampled bytes in `[0x00,0x06]` and
`(0x0D,0x1F]` exceeds 10% of the sample length — stated as equality with
`isBinarySpec`, the definition transcribed from the spec's words. -/
theorem C2_binary_detector (bytes : List Nat) :
    isBinaryFile bytes = isBinarySpec bytes ∧
    isBinaryFile bytes = isBinaryFile (bytes.take 8192) ∧
    ((0 : Nat) ∈ bytes.take 8192 → isBinaryFile bytes = true) := by
  refine ⟨?_, ?_, ?_⟩
  · rw [isBinaryFile, isBinarySpec, isBinaryLoop_spec]
    simp
  · rw [isBinaryFile, isBinaryFile, List.take_take]
    simp
  · intro h0
    rw [isBinaryFile, isBinaryLoop_spec]
    have hany : (bytes.take 8192).any (fun b => b == 0) = true :=
      List.any_eq_true.2 ⟨0, h0, by simp⟩
    rw [hany]
    simp

/-- Witness for C2 at a concrete input containing a zero byte. -/
theorem C2_witness :
    (0 : Nat) ∈ ([65, 0, 66] : List Nat).take 8192 ∧
      isBinaryFile [65, 0, 66] = true := by
  refine ⟨by decide, ?_⟩
  exact (C2_binary_detector [65, 0, 66]).2.2 (by decide)

/-- C7: bundle synthesis applied to an empty file list yields exactly the
header block (generation timestamp and file count 0) and nothing else,
and this is a non-empty string. -/
theorem C7_empty_synthesis (ts : Str) :
    synthesizeBundle ts [] = mkHeader ts 0 ∧ synthesizeBundle ts [] ≠ [] := by
  have h1 : synthesizeBundle ts [] = mkHeader ts 0 := by
    rw [synthesizeBundle]
    simp [joinNl]
  refine ⟨h1, ?_⟩
  rw [h1, mkHeader]
  intro hc
  rcases List.append_eq_nil.mp hc with ⟨h2, -⟩
  rcases List.append_eq_nil.mp h2 with ⟨h3, -⟩
  rcases List.append_eq_nil.mp h3 with ⟨h4, -⟩
  rcases List.append_eq_nil.mp h4 with ⟨h5, -⟩
  exact absurd h5 (by decide)

/-- C1 as stated is refuted by a workspace file whose *name* contains the
block-comment terminator: the name is spliced un-escaped into the
block-comment header line `[Non-Script File: ...]`, so the wrapping block
comment of `a*/b.txt` (a non-script extension, content containing the
terminator) contains an un-escaped `*/` before its final terminator. -/
theorem C1_counterexample :
    isScriptExt (getExt (str "a*/b.txt")) = false ∧
    hasSub starSlash (str "x*/y") = true ∧
    wrapNonScript (str "a*/b.txt") (str "x*/y") =
      wrapPrefix (str "a*/b.txt") (str "x*/y") ++ starSlash ∧
    hasSub starSlash (wrapPrefix (str "a*/b.txt") (str "x*/y")) = true := by
  refine ⟨by decide, by decide, wrapNonScript_decomp _ _, by decide⟩

/-- C1 (amended): for every non-script file whose *name* does not itself
contain the terminator sequence `*/`, every occurrence of `*/` in the
content is replaced before embedding, and the wrapping `/* ... */` block
contains no un-escaped `*/` before its final terminator — the block opens
and closes exactly once. -/
theorem C1_nonscript_escape_amended (name content : Str)
    (hext : isScriptExt (getExt name) = false)
    (hcon : hasSub starSlash content = true)
    (hname : hasSub starSlash name = false) :
    wrapNonScript name content = wrapPrefix name content ++ starSlash ∧
    hasSub starSlash (wrapPrefix name content) = false := by
  refine ⟨wrapNonScript_decomp name content, ?_⟩
  rw [wrapPrefix]
  have hl2 : starSlash.length = 2 := by decide
  have hA : hasSub starSlash (str "/*\n[Non-Script File: ") = false := by decide
  have hesc := escTerm_no_terminator content
  -- level 4: A ++ name
  have l4 : hasSub starSlash (str "/*\n[Non-Script File: " ++ name) = false := by
    refine hasSub_append_false _ _ _ hA hname ?_
    intro k hk hk0
    have hk1 : k = 1 := by omega
    subst hk1
    left
    decide
  -- level 3: (A ++ name) ++ B
  have l3 : hasSub starSlash ((str "/*\n[Non-Script File: " ++ name) ++ str "]\n\n") =
      false := by
    refine hasSub_append_false _ _ _ l4 (by decide) ?_
    intro k hk hk0
    have hk1 : k = 1 := by omega
    subst hk1
    right
    decide
  -- level 2: (...) ++ escTerm content
  have l2 : hasSub starSlash
      (((str "/*\n[Non-Script File: " ++ name) ++ str "]\n\n") ++ escTerm content) =
      false := by
    refine hasSub_append_false _ _ _ l3 hesc ?_
    intro k hk hk0
    have hk1 : k = 1 := by omega
    subst hk1
    left
    by_contra hc
    rw [Bool.not_eq_false] at hc
    have := isSuff_of_append _ _ _ hc (by decide)
    exact absurd this (by decide)
  -- level 1: (...) ++ "\n"
  have l1 : hasSub starSlash
      ((((str "/*\n[Non-Script File: " ++ name) ++ str "]\n\n") ++ escTerm content) ++
        str "\n") = false := by
    refine hasSub_append_false _ _ _ l2 (by decide) ?_
    intro k hk hk0
    have hk1 : k = 1 := by omega
    subst hk1
    right
    decide
  simpa [List.append_assoc] using l1

/-- Witness for the amended C1 at a terminator-free name. -/
theorem C1_witness :
    wrapNonScript (str "a.txt") (str "x*/y") =
      wrapPrefix (str "a.txt") (str "x*/y") ++ starSlash ∧
    hasSub starSlash (wrapPrefix (str "a.txt") (str "x*/y")) = false := by
  exact C1_nonscript_escape_amended (str "a.txt") (str "x*/y")
    (by decide) (by decide) (by decide)

/-- C4: each enabled optional stage that throws appends exactly one
warning Diagnostic carrying the stage's own error message, the pipeline
continues with the pre-stage bundle text unchanged, and the stages run in
the fixed order transpile-then-format (the build is never aborted by an
optional stage). -/
theorem C4_optional_stage_failure (eT eF : Bool) (bt pf : Str → Except Str Str)
    (code : Str) :
    (∀ e, bt code = .error e → e ≠ [] →
      (transpileStage true bt code).1 = code ∧
      warningsOf (transpileStage true bt code).2 =
        [⟨.warning, str "Transpilation skipped: " ++ e⟩]) ∧
    (∀ e, pf (transpileStage eT bt code).1 = .error e → e ≠ [] →
      (runPipeline eT true bt pf code).1 = (transpileStage eT bt code).1 ∧
      warningsOf (formatStage true pf (transpileStage eT bt code).1).2 =
        [⟨.warning, str "Formatting failed: " ++ e⟩]) ∧
    (runPipeline eT eF bt pf code).1 =
      (formatStage eF pf (transpileStage eT bt code).1).1 := by
  refine ⟨?_, ?_, rfl⟩
  · intro e he hne
    constructor
    · rw [transpileStage, if_pos rfl, he]
    · rw [transpileStage, if_pos rfl, he]
      simp only []
      rw [if_neg hne]
      rfl
  · intro e he hne
    constructor
    · show (formatStage true pf (transpileStage eT bt code).1).1 = _
      rw [formatStage, if_pos rfl, he]
    · rw [formatStage, if_pos rfl, he]
      simp only []
      rw [if_neg hne]
      rfl

/-- Witness for C4: a concrete failing transpile stage degrades to the
single warning and keeps the input text. -/
theorem C4_witness :
    (transpileStage true (fun _ => Except.error (str "boom")) (str "x")).1 = str "x" ∧
    warningsOf (transpileStage true (fun _ => Except.error (str "boom")) (str "x")).2 =
      [⟨.warning, str "Transpilation skipped: " ++ str "boom"⟩] := by
  exact (C4_optional_stage_failure true true (fun _ => Except.error (str "boom"))
    (fun _ => Except.error (str "fmt")) (str "x")).1 (str "boom") rfl (by decide)

theorem handleFilesSelectedV2_single (jp : Str → Except Str JsonVal)
    (name content : Str) (hbin : isBinaryFile (contentBytes content) = false) :
    handleFilesSelectedV2 jp [(name, content)] =
      ([⟨name, content, content.length⟩],
        validateFile jp name content ++
          [⟨.info, str "Successfully added 1 file(s) to workspace."⟩]) := by
  have hloop : ingestLoop jp [(name, content)] ⟨[], [], 0⟩ =
      ⟨[⟨name, content, content.length⟩], validateFile jp name content, 0⟩ := by
    rw [ingestLoop, if_neg (by rw [hbin]; exact Bool.false_ne_true), ingestLoop]
    simp
  rw [handleFilesSelectedV2, hloop]
  simp only [List.length_cons, List.length_nil, Nat.zero_add, Nat.lt_irrefl,
    if_false, Nat.zero_lt_one, if_pos]
  rw [show str "Successfully added " ++ str (toString (1 : Nat)) ++
      str " file(s) to workspace." = str "Successfully added 1 file(s) to workspace."
    from by decide]

/-- C5: a `.json` file with content `{}` produces exactly one info
Diagnostic ("empty object") from the Ingestion Validator and is added to
the workspace with content exactly `{}`; a `.json` file with content `{`
produces exactly one error Diagnostic embedding the JSON parser's failure
message and is still added with its raw content; more generally a JSON
parse failure is never fatal to ingestion of the file. -/
theorem C5_json_ingestion (jp : Str → Except Str JsonVal) (e : Str)
    (h1 : jp (str "\x7b\x7d") = .ok (.obj 0))
    (h2 : jp (str "\x7b") = .error e) :
    validateFile jp (str "a.json") (str "\x7b\x7d") =
      [⟨.info, str "JSON file \"a.json\" is just an empty object."⟩] ∧
    (handleFilesSelectedV2 jp [(str "a.json", str "\x7b\x7d")]).1 =
      [⟨str "a.json", str "\x7b\x7d", 2⟩] ∧
    (handleFilesSelectedV2 jp [(str "a.json", str "\x7b\x7d")]).2 =
      [⟨.info, str "JSON file \"a.json\" is just an empty object."⟩,
       ⟨.info, str "Successfully added 1 file(s) to workspace."⟩] ∧
    validateFile jp (str "b.json") (str "\x7b") =
      [⟨.error, str "Invalid JSON in \"b.json\": " ++ e⟩] ∧
    (handleFilesSelectedV2 jp [(str "b.json", str "\x7b")]).1 =
      [⟨str "b.json", str "\x7b", 1⟩] ∧
    (∀ (jp' : Str → Except Str JsonVal) (name content : Str),
      getExt name = str "json" → isBinaryFile (contentBytes content) = false →
      (handleFilesSelectedV2 jp' [(name, content)]).1 =
        [⟨name, content, content.length⟩]) := by
  have hva : validateFile jp (str "a.json") (str "\x7b\x7d") =
      [⟨.info, str "JSON file \"a.json\" is just an empty object."⟩] := by
    rw [validateFile]
    simp only []
    rw [if_neg (by decide : ¬ (isBlank (str "\x7b\x7d") = true)),
      if_pos (by decide : getExt (str "a.json") = str "json"), h1]
    simp only []
    rw [if_pos (by decide : jsonKeys (JsonVal.obj 0) = 0 ∧ jsonIsArray (JsonVal.obj 0) = false)]
    decide
  have hvb : validateFile jp (str "b.json") (str "\x7b") =
      [⟨.error, str "Invalid JSON in \"b.json\": " ++ e⟩] := by
    rw [validateFile]
    simp only []
    rw [if_neg (by decide : ¬ (isBlank (str "\x7b") = true)),
      if_pos (by decide : getExt (str "b.json") = str "json"), h2]
    simp only []
    rw [show str "Invalid JSON in \"" ++ str "b.json" ++ str "\": " =
        str "Invalid JSON in \"b.json\": " from by decide]
  have ha := handleFilesSelectedV2_single jp (str "a.json") (str "\x7b\x7d") (by decide)
  have hb := handleFilesSelectedV2_single jp (str "b.json") (str "\x7b") (by decide)
  refine ⟨hva, ?_, ?_, hvb, ?_, ?_⟩
  · rw [ha]
    rfl
  · rw [ha, hva]
    decide
  · rw [hb]
    rfl
  · intro jp' name content hjson hbin
    rw [handleFilesSelectedV2_single jp' name content hbin]

/-- Witness for C5 at a concrete JSON parser shape. -/
theorem C5_witness :
    validateFile
      (fun s => if s = str "\x7b\x7d" then Except.ok (JsonVal.obj 0)
        else Except.error (str "Unexpected end of JSON input"))
      (str "a.json") (str "\x7b\x7d") =
      [⟨.info, str "JSON file \"a.json\" is just an empty object."⟩] ∧
    validateFile
      (fun s => if s = str "\x7b\x7d" then Except.ok (JsonVal.obj 0)
        else Except.error (str "Unexpected end of JSON input"))
      (str "b.json") (str "\x7b") =
      [⟨.error, str "Invalid JSON in \"b.json\": " ++
        str "Unexpected end of JSON input"⟩] := by
  have h := C5_json_ingestion
    (fun s => if s = str "\x7b\x7d" then Except.ok (JsonVal.obj 0)
      else Except.error (str "Unexpected end of JSON input"))
    (str "Unexpected end of JSON input") (by rfl) (by rfl)
  exact ⟨h.1, h.2.2.2.1⟩

/-- C6 as stated is refuted: with only the workspace-file-list key present
(the bundle-text key absent), the saved file list is still restored — the
workspace file list does not remain in its initial empty state. -/
theorem C6_counterexample :
    (restoreV1 none (some (str "[f]"))
      (fun _ => some [⟨str "a.txt", str "hi", 2⟩])).1 =
        [⟨str "a.txt", str "hi", 2⟩] ∧
    (restoreV1 none (some (str "[f]"))
      (fun _ => some [⟨str "a.txt", str "hi", 2⟩])).1 ≠ [] ∧
    (restoreV2 none (some (str "[f]"))
      (fun _ => some [⟨str "a.txt", str "hi", 2⟩])).1 =
        [⟨str "a.txt", str "hi", 2⟩] := by
  refine ⟨by decide, by decide, by decide⟩

/-- C6 (amended): the two persisted keys are restored independently — an
absent bundle-text key leaves the bundle text empty but a present
file-list key still restores the file list (in the first app only when it
parses to a non-empty array), and an absent file-list key leaves the file
list empty but a present bundle-text key still restores the bundle text.
Partial presence is not treated as no restoration. -/
theorem C6_restore_amended (pf : Str → Option (List FileEntry)) (s c : Str) :
    (restoreV1 none (some s) pf).2.1 = [] ∧
    (restoreV1 (some c) none pf).1 = [] ∧
    (restoreV1 none (some s) pf).1 =
      (match pf s with
       | some l => if 0 < l.length then l else []
       | none => []) ∧
    (restoreV1 (some c) none pf).2.1 = c ∧
    (restoreV2 none (some s) pf).2 = [] ∧
    (restoreV2 (some c) none pf).1 = [] ∧
    (restoreV2 none (some s) pf).1 = (pf s).getD [] ∧
    (restoreV2 (some c) none pf).2 = c := by
  refine ⟨rfl, rfl, ?_, rfl, rfl, rfl, rfl, rfl⟩
  cases hpf : pf s with
  | none => simp [restoreV1, hpf]
  | some l =>
    by_cases hl : 0 < l.length <;> simp [restoreV1, hpf, hl]

/-- C8 as stated is refuted on the second app's build trigger
(`if (files.length === 0) return;`): a zero-file build there is a silent
no-op — no warning Diagnostic is appended at all. -/
theorem C8_counterexample :
    handleBundleV2 BundleType.JS true (fun c => Except.ok c) (fun _ => [])
        ⟨[], str "prior bundle", []⟩ = ⟨[], str "prior bundle", []⟩ ∧
    (handleBundleV2 BundleType.JS true (fun c => Except.ok c) (fun _ => [])
        ⟨[], str "prior bundle", []⟩).diagnostics = [] := by
  exact ⟨rfl, rfl⟩

/-- C8 (amended): a build over zero files never produces or replaces a
Bundle and leaves the workspace untouched; the first app's trigger appends
exactly the warning Diagnostic "No files to bundle.", while the second
app's trigger is a complete no-op that appends no Diagnostic. -/
theorem C8_zero_file_build_amended (ts : Str) (eT eF eT2 : Bool)
    (bt pf babel : Str → Except Str Str) (eslint : Str → List LintMsg)
    (bty : BundleType) (code0 : Str) (d0 : List Diag) :
    handleBundleV1 ts eT eF bt pf ⟨[], code0, d0⟩ =
      ⟨[], code0, d0 ++ [⟨.warning, str "No files to bundle."⟩]⟩ ∧
    handleBundleV2 bty eT2 babel eslint ⟨[], code0, d0⟩ = ⟨[], code0, d0⟩ := by
  constructor
  · simp [handleBundleV1]
  · simp [handleBundleV2.eq_def]

theorem escScript_no_close_all (s : Str) :
    hasSub scriptClose (escScript s) = false :=
  escScript_no_close s.length s le_rfl

/-- C9 (amended): the concatenated script content has every literal
`</script>` escaped before injection, and within the synthesized block the
script region ends only at the synthesizer's own closing tag; moreover,
provided the block contains no `$` character, the string-replacement
injection into the document splices the block literally (JavaScript's
GetSubstitution `$`-sequences are what break the claim in general). -/
theorem C9_script_escape_amended (files : List FileEntry) :
    hasSub scriptClose (escScript (previewScripts files)) = false ∧
    previewScriptBlock files =
      (scriptOpen ++ str "\n" ++ escScript (previewScripts files) ++ str "\n") ++
        scriptClose ∧
    hasSub scriptClose
      (scriptOpen ++ str "\n" ++ escScript (previewScripts files) ++ str "\n") = false ∧
    ('$' ∉ previewScriptBlock files →
      ∀ m x y, substDollar m x y (previewScriptBlock files ++ str "\n</body>") =
        previewScriptBlock files ++ str "\n</body>") := by
  have hesc := escScript_no_close_all (previewScripts files)
  refine ⟨hesc, ?_, ?_, ?_⟩
  · rw [previewScriptBlock]
  · -- no premature terminator strictly before the block's own closing tag
    have hEN : hasSub scriptClose (escScript (previewScripts files) ++ str "\n") =
        false := by
      refine hasSub_append_false _ _ _ hesc (by decide) ?_
      intro k hk hk0
      right
      revert k
      decide
    have hNEN : hasSub scriptClose
        (str "\n" ++ (escScript (previewScripts files) ++ str "\n")) = false := by
      refine hasSub_append_false _ _ _ (by decide) hEN ?_
      intro k hk hk0
      left
      revert k
      decide
    have hONEN : hasSub scriptClose
        (scriptOpen ++ (str "\n" ++ (escScript (previewScripts files) ++ str "\n"))) =
        false := by
      refine hasSub_append_false _ _ _ (by decide) hNEN ?_
      intro k hk hk0
      left
      revert k
      decide
    simpa [List.append_assoc] using hONEN
  · intro hd m x y
    refine substDollar_no_dollar m x y
      (previewScriptBlock files ++ str "\n</body>").length _ le_rfl ?_
    intro hmem
    rcases List.mem_append.mp hmem with h | h
    · exact hd h
    · exact absurd h (by decide)

/-- Witness for the amended C9 at a dollar-free script file. -/
theorem C9_witness :
    substDollar (str "</body>") (str "pre") (str "post")
      (previewScriptBlock [⟨str "b.js", str "x", 1⟩] ++ str "\n</body>") =
      previewScriptBlock [⟨str "b.js", str "x", 1⟩] ++ str "\n</body>" := by
  exact (C9_script_escape_amended [⟨str "b.js", str "x", 1⟩]).2.2.2 (by decide)
    (str "</body>") (str "pre") (str "post")

set_option maxRecDepth 1000000 in
/-- C9 as stated ("for all inputs the injected content cannot prematurely
terminate the enclosing script region") is refuted: the injection is a
string `replace`, so a script whose content is the two characters `$` and
a straight quote makes GetSubstitution splice the document text after the
match — including its `</script>` — into the script region.  The region
of the synthesized preview then ends inside the spliced text instead of
containing the escaped script content. -/
theorem C9_counterexample :
    hasSub scriptClose (escScript (previewScripts fs9)) = false ∧
    scriptRegionInterior (constructPreview fs9) ≠
      str "\n" ++ escScript (previewScripts fs9) ++ str "\n" ∧
    scriptRegionInterior (constructPreview fs9) =
      str "\n// --- b.js ---\n<script>x" := by
  refine ⟨by decide, by decide, by decide⟩

set_option maxRecDepth 1000000 in
/-- C3 as stated is refuted: re-running the preview synthesizer on its own
prior output can duplicate the title element.  A markup file containing a
`<title>` and a bare `<html` (so the head-injection's `/<html[^>]*>/`
match spans into the appended script block on the second run) yields one
`<title` occurrence after the first run and two after the second. -/
theorem C3_counterexample :
    countOcc (str "<title") (lower (constructPreview fs3)) = 1 ∧
    countOcc (str "<title")
      (lower (constructPreview
        [⟨str "prev.html", constructPreview fs3, (constructPreview fs3).length⟩])) =
      2 := by
  refine ⟨by decide, by decide⟩

set_option maxRecDepth 1000000 in
/-- C3 (amended): re-running the preview synthesizer on its own prior
output never duplicates the document shell — the occurrence counts of the
doctype declaration, the html root marker and the body-tag marker do not
increase — but head-section pieces (head, title, charset meta, viewport
meta) are not protected (see the title counterexample). -/
theorem C3_preview_structural_amended (files : List FileEntry) :
    countOcc (str "<!doctype html")
        (lower (constructPreview
          [⟨str "prev.html", constructPreview files,
            (constructPreview files).length⟩])) ≤
      countOcc (str "<!doctype html") (lower (constructPreview files)) ∧
    countOcc (str "<html")
        (lower (constructPreview
          [⟨str "prev.html", constructPreview files,
            (constructPreview files).length⟩])) ≤
      countOcc (str "<html") (lower (constructPreview files)) ∧
    countOcc (str "<body")
        (lower (constructPreview
          [⟨str "prev.html", constructPreview files,
            (constructPreview files).length⟩])) ≤
      countOcc (str "<body") (lower (constructPreview files)) := by
  have hdoc := preview_doc files
  set O := constructPreview files with hO
  have hOne : O ≠ [] := by
    intro h0
    rw [h0] at hdoc
    exact absurd hdoc (by decide)
  have hmark : isMarkupName (str "prev.html") = true := by decide
  have hstyle : isStyleName (str "prev.html") = false := by decide
  have hscript : isScriptNameP (str "prev.html") = false := by decide
  have hprev : previewHtmlContent [⟨str "prev.html", O, O.length⟩] = O := by
    simp only [previewHtmlContent, List.find?, hmark]
    rw [if_neg hOne]
  have hcss : List.filter (fun f => isStyleName f.name)
      ([⟨str "prev.html", O, O.length⟩] : List FileEntry) = [] := by
    simp only [List.filter, hstyle]
  have hjs : List.filter (fun f => isScriptNameP f.name)
      ([⟨str "prev.html", O, O.length⟩] : List FileEntry) = [] := by
    simp only [List.filter, hscript]
  have hscriptid : ∀ t, scriptPhase [⟨str "prev.html", O, O.length⟩] t = t := by
    intro t
    rw [scriptPhase]
    simp only []
    rw [hjs]
    rw [if_neg (by decide : ¬ (0 < List.length ([] : List FileEntry)))]
  have hrun2 : constructPreview [⟨str "prev.html", O, O.length⟩] =
      stylePhase [] (structuralPhase O) := by
    rw [constructPreview, hprev, hcss, hscriptid]
  rw [hrun2]
  refine ⟨?_, ?_, ?_⟩ <;>
    exact le_trans (styleNilCount _ (by decide) (by decide) _)
      (structural_count _ (by decide) (by decide) (by decide) (by decide) O hdoc)

end BB
